import Mathlib

/-!
# Verification of the `create-rstack` template composition engine

This file gives a shallow embedding, in Lean 4, of the core functions of
`src/index.ts` of the `create-rstack` repository:

* `formatProjectName` (path/name normalizer),
* `parseToolsOption` and `getTools` (CLI tool-list resolution),
* `runCommand`'s package-manager command rewriting,
* `isStableVersion` and `updatePackageJson` (descriptor version/name patching),
* `sortObjectKeys` and `mergePackageJson` (descriptor structural merge),
* `replacePlaceholder` (placeholder substitution on Markdown assets),
* `copyFolder` (recursive tree composition),
* `parseAgentsContent` and `mergeAgentsFiles` (documentation fragment merge),

together with theorems settling the specification claims about them.

Modelling conventions, chosen once and used throughout:

* JavaScript objects are modelled as insertion-ordered association lists;
  assigning to an existing key updates its value in place, assigning to a new
  key appends it.  The reordering of integer-like property keys performed by
  JS engines, and prototype-chain lookups, are outside the model.
* JavaScript strings are Lean `String`s; the operations that matter are
  reimplemented character-by-character (structurally, so that concrete
  instances evaluate inside the kernel) with the JS whitespace set, the JS
  line-terminator set, and JS `String.prototype.replace` replacement-pattern
  expansion (dollar sequences).
* `String.prototype.toLowerCase` is modelled by ASCII lowercasing.
* The regular expressions built by the code are modelled by a small matcher
  for the fragment actually reachable here: fixed-width patterns made of
  literal characters and the `.` wildcard.  A key containing any other regex
  metacharacter does not compile in the model and its substitution pass is
  modelled as the identity; all theorems about substitution restrict to the
  compiled fragment.
* JSON documents are an inductive `JValue`; `JSON.parse` is a fuel-indexed
  recursive-descent parser and `JSON.stringify(v, null, 2)` is implemented
  exactly, except that numbers are carried as their raw source text (IEEE-754
  re-canonicalisation is outside the model).
* The filesystem is an in-memory tree; functions that can throw return
  `Except`, with the error value carrying the partially-written destination,
  matching the no-rollback behaviour of the code.
-/

set_option maxRecDepth 8000

/-! ## JavaScript string primitives -/

/-- The JavaScript whitespace set, as used by `\s` and
`String.prototype.trim`. -/
def isJsWS (c : Char) : Bool :=
  c == ' ' || c == '\t' || c == '\n' || c == '\r' ||
  c.val == 0x0b || c.val == 0x0c || c.val == 0xa0 || c.val == 0x1680 ||
  (0x2000 ≤ c.val && c.val ≤ 0x200a) ||
  c.val == 0x2028 || c.val == 0x2029 || c.val == 0x202f ||
  c.val == 0x205f || c.val == 0x3000 || c.val == 0xfeff

/-- The JavaScript line-terminator set (what `.` in a regex does not match). -/
def isJsLineTerm (c : Char) : Bool :=
  c == '\n' || c == '\r' || c.val == 0x2028 || c.val == 0x2029

/-- `String.prototype.trim` on the character list. -/
def jsTrimL (cs : List Char) : List Char :=
  ((cs.dropWhile isJsWS).reverse.dropWhile isJsWS).reverse

/-- `String.prototype.trim`. -/
def jsTrim (s : String) : String := ⟨jsTrimL s.data⟩

/-- ASCII model of `String.prototype.toLowerCase`. -/
def jsToLower (s : String) : String := ⟨s.data.map Char.toLower⟩

/-- Split a character list at every occurrence of a separator character,
modelling `String.prototype.split` with a one-character separator. -/
def splitCharL (sep : Char) : List Char → List (List Char)
  | [] => [[]]
  | c :: cs =>
    match splitCharL sep cs with
    | [] => [[]]
    | g :: gs => if c == sep then [] :: g :: gs else (c :: g) :: gs

/-- `String.prototype.split` with a one-character separator. -/
def jsSplitChar (sep : Char) (s : String) : List String :=
  (splitCharL sep s.data).map (fun g => ⟨g⟩)

/-- Join a list of strings with `"\n"`, modelling `Array.prototype.join`. -/
def joinNL (l : List String) : String :=
  ⟨List.intercalate ['\n'] (l.map String.data)⟩

/-- Structural prefix test on character lists. -/
def isPrefixOfL : List Char → List Char → Bool
  | [], _ => true
  | _ :: _, [] => false
  | a :: as', b :: bs => a == b && isPrefixOfL as' bs

/-- Structural infix (substring) test on character lists, modelling
`String.prototype.includes`. -/
def isInfixOfL (pat : List Char) : List Char → Bool
  | [] => isPrefixOfL pat []
  | c :: cs => isPrefixOfL pat (c :: cs) || isInfixOfL pat cs

/-- `String.prototype.includes`. -/
def jsIncludes (s pat : String) : Bool := isInfixOfL pat.data s.data

/-- Suffix test on character lists, modelling `String.prototype.endsWith`. -/
def endsWithL (suffix s : List Char) : Bool := isPrefixOfL suffix.reverse s.reverse

/-! ## Replacement-pattern expansion and the regex fragment

`String.prototype.replace(pattern, repl)` interprets dollar sequences in
`repl`: a doubled dollar is a literal dollar sign, dollar-ampersand is the
matched text, dollar followed by the backquote character is the part of the
original string before the match, dollar-quote the part after it, and any
other dollar sequence is left as it stands (the patterns used in this code
have no capture groups). -/

/-- Expand the dollar replacement patterns of `String.prototype.replace` in a
replacement string, given the matched text and the parts of the original
string before and after the match. -/
def expandRepl (before matched after : List Char) : List Char → List Char
  | [] => []
  | '$' :: c :: rest =>
    if c == '$' then '$' :: expandRepl before matched after rest
    else if c == '&' then matched ++ expandRepl before matched after rest
    else if c.val == 0x60 then before ++ expandRepl before matched after rest
    else if c == '\'' then after ++ expandRepl before matched after rest
    else '$' :: expandRepl before matched after (c :: rest)
  | c :: rest => c :: expandRepl before matched after rest

/-- One atom of the supported regex fragment: a literal character or the `.`
wildcard (any character except a line terminator). -/
inductive RAtom where
  | lit (c : Char)
  | dot
  deriving Repr, DecidableEq

/-- Whether a regex atom matches one character. -/
def atomMatches : RAtom → Char → Bool
  | .lit a, c => a == c
  | .dot, c => !isJsLineTerm c

/-- Whether a fixed-width pattern matches a prefix of the input. -/
def matchesAt : List RAtom → List Char → Bool
  | [], _ => true
  | _ :: _, [] => false
  | a :: ps, c :: cs => atomMatches a c && matchesAt ps cs

/-- A string as a list of literal atoms. -/
def litAtoms (s : String) : List RAtom := s.data.map RAtom.lit

/-- Fuel-indexed worker for global regex replacement: scan the input left to
right, and at each leftmost match emit the expanded replacement and continue
after the matched text (the patterns used here are never empty, so the scan
always advances; the fuel is always sufficient at the wrapper's call). -/
def replaceGAux (pat : List RAtom) (repl : List Char) (orig : List Char) :
    Nat → Nat → List Char
  | 0, _ => []
  | fuel + 1, i =>
    match orig.drop i with
    | [] => []
    | c :: rest' =>
      if matchesAt pat (c :: rest') then
        expandRepl (orig.take i) ((c :: rest').take pat.length)
            (orig.drop (i + pat.length)) repl
          ++ replaceGAux pat repl orig fuel (i + max pat.length 1)
      else
        c :: replaceGAux pat repl orig fuel (i + 1)

/-- Global regex replacement (`String.prototype.replace` with a `g`-flagged
regex from the supported fragment), including replacement-pattern expansion. -/
def replaceG (pat : List RAtom) (repl : List Char) (s : List Char) : List Char :=
  replaceGAux pat repl s (s.length + 1) 0

/-- Fuel-indexed worker for first-occurrence string replacement. -/
def replaceFirstAux (pat repl : List Char) (orig : List Char) :
    Nat → Nat → List Char
  | 0, _ => []
  | fuel + 1, i =>
    match orig.drop i with
    | [] => if pat.isEmpty then expandRepl orig [] orig repl else []
    | c :: rest' =>
      if isPrefixOfL pat (c :: rest') then
        expandRepl (orig.take i) pat (orig.drop (i + pat.length)) repl
          ++ orig.drop (i + pat.length)
      else
        c :: replaceFirstAux pat repl orig fuel (i + 1)

/-- `String.prototype.replace(pat, repl)` with a string pattern: replaces only
the first occurrence, with replacement-pattern expansion. -/
def jsReplaceFirst (s pat repl : String) : String :=
  ⟨replaceFirstAux pat.data repl.data s.data (s.data.length + 1) 0⟩

/-- Literal global string replacement (no regex, no replacement-pattern
expansion): the behaviour the specification ascribes to placeholder and
sentinel substitution.  Used as the comparison point for the code's
regex-based substitution. -/
def litReplaceAllAux (pat repl orig : List Char) : Nat → Nat → List Char
  | 0, _ => []
  | fuel + 1, i =>
    match orig.drop i with
    | [] => []
    | c :: rest' =>
      if isPrefixOfL pat (c :: rest') then
        repl ++ litReplaceAllAux pat repl orig fuel (i + max pat.length 1)
      else
        c :: litReplaceAllAux pat repl orig fuel (i + 1)

/-- Literal global string replacement on strings. -/
def litReplaceAll (s pat repl : String) : String :=
  ⟨litReplaceAllAux pat.data repl.data s.data (s.data.length + 1) 0⟩

/-- First-occurrence literal string replacement without replacement-pattern
expansion: the specification-level reading of `String.prototype.replace`
with a string pattern and a plain replacement. -/
def litReplaceFirstAux (pat repl orig : List Char) : Nat → Nat → List Char
  | 0, _ => []
  | fuel + 1, i =>
    match orig.drop i with
    | [] => if pat.isEmpty then repl else []
    | c :: rest' =>
      if isPrefixOfL pat (c :: rest') then
        repl ++ orig.drop (i + pat.length)
      else
        c :: litReplaceFirstAux pat repl orig fuel (i + 1)

/-- First-occurrence literal string replacement on strings. -/
def litReplaceFirst (s pat repl : String) : String :=
  ⟨litReplaceFirstAux pat.data repl.data s.data (s.data.length + 1) 0⟩

/-! ## Version directives (`isStableVersion`, the textual sentinel pass) -/

/-- `isStableVersion` from the source: every pre-release marker is absent. -/
def isStableVersion (version : String) : Bool :=
  ["alpha", "beta", "rc", "canary", "nightly"].all
    (fun tag => !jsIncludes version tag)

/-- The textual pre-pass of `updatePackageJson` for a single-string version
directive: `content.replace(/workspace:\*/g, targetVersion)` where
`targetVersion` is the caret-prefixed version when stable and the exact
version otherwise.  Every character of the pattern is literal. -/
def applyVersionString (content : String) (version : String) : String :=
  let targetVersion := if isStableVersion version then "^" ++ version else version
  ⟨replaceG (litAtoms "workspace:*") targetVersion.data content.data⟩

/-! ## `runCommand`'s package-manager command rewriting -/

/-- The `createReplacements` table of `runCommand`. -/
def createReplacements (packageManager : String) : Option String :=
  if packageManager == "bun" then some "bun create "
  else if packageManager == "pnpm" then some "pnpm create "
  else if packageManager == "yarn" then some "yarn create "
  else if packageManager == "deno" then some "deno run -A npm:create-"
  else none

/-- The command rewriting performed by `runCommand` before spawning: commands
beginning with `npm create ` have the prefix replaced per package manager and
the npm argument separator reduced, and under yarn an `@latest` tag is
stripped.  Each `String.prototype.replace` call here uses a string pattern,
so it rewrites only the first occurrence.  The spawn of the resulting command
is outside the model. -/
def runCommandRewrite (command : String) (packageManager : String) : String :=
  if isPrefixOfL "npm create ".data command.data then
    let command₁ :=
      match createReplacements packageManager with
      | some replacement =>
        jsReplaceFirst (jsReplaceFirst command "npm create " replacement) " -- --" " --"
      | none => command
    if packageManager == "yarn" then jsReplaceFirst command₁ "@latest" "" else command₁
  else command

/-! ## `formatProjectName` (path/name normalizer) -/

/-- Strip every trailing slash, modelling `input.replace(/\/+$/g, '')`. -/
def stripTrailingSlashesL (cs : List Char) : List Char :=
  (cs.reverse.dropWhile (· == '/')).reverse

/-- The characters after the last slash, once trailing slashes are dropped:
`path.basename` for POSIX paths. -/
def nodeBasename (s : String) : String :=
  ⟨((stripTrailingSlashesL s.data).reverse.takeWhile (· != '/')).reverse⟩

/-- Result of `formatProjectName`. -/
structure FormattedProject where
  packageName : String
  targetDir : String
  deriving Repr, DecidableEq

/-- `formatProjectName` from the source. -/
def formatProjectName (input : String) : FormattedProject :=
  let formatted : String := ⟨stripTrailingSlashesL (jsTrim input).data⟩
  { packageName :=
      if isPrefixOfL ['@'] formatted.data then formatted else nodeBasename formatted
    targetDir := formatted }

/-- Specification-side reading of the final slash-delimited segment: the last
element of the slash-split of the string. -/
def lastSlashSegment (s : String) : String :=
  (jsSplitChar '/' s).getLastD ""

/-! ## Tool-list resolution (`parseToolsOption`, `getTools`) -/

/-- `BUILTIN_TOOLS` from the source. -/
def BUILTIN_TOOLS : List String := ["biome", "eslint", "prettier"]

/-- The caller-supplied extra-tool contract (the fields `getTools` reads). -/
structure ExtraTool where
  value : String
  label : String
  command : Option String := none
  order : Option String := none
  deriving Repr, DecidableEq

/-- JS truthiness of an optional string (`undefined` and the empty string are
falsy). -/
def jsTruthyStr (s : Option String) : Bool := s.getD "" != ""

/-- `parseToolsOption` from the source: `undefined` stays `null`; otherwise
the value is arrayified, split on commas, trimmed, and cleared of empties. -/
def parseToolsOption (tools : Option (Sum String (List String))) :
    Option (List String) :=
  match tools with
  | none => none
  | some t =>
    let toolsArr := match t with | .inl s => [s] | .inr l => l
    some (((toolsArr.flatMap (fun s => jsSplitChar ',' s)).map jsTrim).filter
      (fun s => s != ""))

/-- Whether a tool name is a built-in tool or a caller-supplied extra tool. -/
def isKnownTool (extraTools : Option (List ExtraTool)) (tool : String) : Bool :=
  BUILTIN_TOOLS.contains tool ||
    (match extraTools with
     | some ets => ets.any (fun et => et.value == tool)
     | none => false)

/-- Outcome of `getTools`: either a resolved tool list, or the interactive
multiselect prompt (carrying the option values it would offer). -/
inductive ToolsOutcome where
  | resolved (tools : List String)
  | prompt (optionValues : List String)
  deriving Repr, DecidableEq

/-- `getTools` from the source: a CLI-supplied tools option is parsed and
filtered against the known tools; with no tools option, the selection prompt
is skipped (empty selection) when both `dir` and `template` were supplied;
otherwise the multiselect prompt is shown, extra tools placed before or after
the built-ins according to their `order`. -/
def getTools (tools : Option (Sum String (List String)))
    (dir template : Option String) (extraTools : Option (List ExtraTool)) :
    ToolsOutcome :=
  match parseToolsOption tools with
  | some parsedTools => .resolved (parsedTools.filter (isKnownTool extraTools))
  | none =>
    if jsTruthyStr dir && jsTruthyStr template then .resolved []
    else
      let preTools := match extraTools with
        | some ets => (ets.filter (fun t => t.order == some "pre")).map (·.value)
        | none => []
      let postTools := match extraTools with
        | some ets => (ets.filter (fun t => t.order != some "pre")).map (·.value)
        | none => []
      .prompt (preTools ++ ["biome", "eslint", "prettier"] ++ postTools)

/-! ## Association lists (JS objects of non-JSON values)

The destination filesystem's directory listings and the documentation
merger's section map are JS objects; they are modelled as insertion-ordered
association lists with JS assignment semantics. -/

/-- Association-list lookup (`obj[key]`, first matching key). -/
def assocGet (m : List (String × α)) (k : String) : Option α :=
  (m.find? (fun p => p.1 == k)).map (·.2)

/-- Association-list lookup with a default. -/
def assocGetD (m : List (String × α)) (k : String) (d : α) : α :=
  (assocGet m k).getD d

/-- Association-list key test (`key in obj`). -/
def assocHas (m : List (String × α)) (k : String) : Bool :=
  m.any (fun p => p.1 == k)

/-- JS-object assignment: update the first matching key in place, else append
the new key at the end. -/
def assocSet : List (String × α) → String → α → List (String × α)
  | [], k, v => [(k, v)]
  | (k', v') :: rest, k, v =>
    if k' == k then (k', v) :: rest else (k', v') :: assocSet rest k v

/-! ## JSON documents

`JValue` models the values produced by `JSON.parse`.  Numbers are carried as
their raw source text: the IEEE-754 parse/re-serialisation round trip is
outside the model (no claim involves numeric values).  Objects are
insertion-ordered field lists (`JObj`); arrays are `JArr`.  The mutual
inductive presentation lets every function below be structurally recursive,
so concrete instances evaluate inside the kernel. -/

mutual
/-- A JSON document. -/
inductive JValue where
  | null
  | bool (b : Bool)
  | num (raw : String)
  | str (s : String)
  | arr (elems : JArr)
  | obj (fields : JObj)

/-- The elements of a JSON array. -/
inductive JArr where
  | nil
  | cons (v : JValue) (rest : JArr)

/-- The ordered fields of a JSON object. -/
inductive JObj where
  | nil
  | cons (k : String) (v : JValue) (rest : JObj)
end

/-- Field lookup (`obj[key]`). -/
def JObj.get : JObj → String → Option JValue
  | .nil, _ => none
  | .cons k' v rest, k => if k' == k then some v else rest.get k

/-- Field lookup with default. -/
def JObj.getD (o : JObj) (k : String) (d : JValue) : JValue := (o.get k).getD d

/-- Field test (`key in obj`). -/
def JObj.hasKey : JObj → String → Bool
  | .nil, _ => false
  | .cons k' _ rest, k => k' == k || rest.hasKey k

/-- JS-object assignment: update the first matching key in place (keeping its
position), else append the new key at the end. -/
def JObj.set : JObj → String → JValue → JObj
  | .nil, k, v => .cons k v .nil
  | .cons k' v' rest, k, v =>
    if k' == k then .cons k' v rest else .cons k' v' (rest.set k v)

/-- Field deletion (models assigning `undefined` and then serialising, which
omits the property). -/
def JObj.del : JObj → String → JObj
  | .nil, _ => .nil
  | .cons k' v' rest, k =>
    if k' == k then rest.del k else .cons k' v' (rest.del k)

/-- The field keys in order. -/
def JObj.keys : JObj → List String
  | .nil => []
  | .cons k _ rest => k :: rest.keys

/-- Array concatenation. -/
def JArr.append : JArr → JArr → JArr
  | .nil, ys => ys
  | .cons x xs, ys => .cons x (xs.append ys)

/-- Array-index own entries (`Object.keys` view of an array), numbering from
a starting index. -/
def JArr.idxEntries : JArr → Nat → JObj
  | .nil, _ => .nil
  | .cons x xs, i => .cons (toString i) x (xs.idxEntries (i + 1))

/-- Whether the digits of a raw JSON number are all zero (JS falsiness of the
number). -/
def numIsZeroish (raw : String) : Bool :=
  let cs := if isPrefixOfL ['-'] raw.data then raw.data.drop 1 else raw.data
  (cs.takeWhile (fun c => c != 'e' && c != 'E')).all (fun c => c == '0' || c == '.')

/-- JS truthiness of a JSON value. -/
def jsTruthy : JValue → Bool
  | .null => false
  | .bool b => b
  | .num raw => !numIsZeroish raw
  | .str s => s != ""
  | .arr _ => true
  | .obj _ => true

/-- JS truthiness of a possibly-absent value (`undefined` is falsy). -/
def truthyOpt : Option JValue → Bool
  | some v => jsTruthy v
  | none => false

/-! ### `JSON.parse` -/

/-- The whitespace accepted by `JSON.parse` (space, tab, newline, carriage
return only). -/
def isJsonWS (c : Char) : Bool :=
  c.val == 0x20 || c.val == 0x09 || c.val == 0x0a || c.val == 0x0d

/-- Skip JSON whitespace. -/
def skipJsonWS (cs : List Char) : List Char := cs.dropWhile isJsonWS

/-- Hex digit value. -/
def hexVal (c : Char) : Option Nat :=
  let n := c.toNat
  if 48 ≤ n && n ≤ 57 then some (n - 48)
  else if 97 ≤ n && n ≤ 102 then some (n - 87)
  else if 65 ≤ n && n ≤ 70 then some (n - 55)
  else none

/-- Parse the body of a JSON string literal (after the opening quote),
returning the decoded characters and the input after the closing quote.
Escaped code points must be valid scalar values: surrogate-pair recombination
is a model boundary and a lone surrogate escape is rejected. -/
def parseJsonStringAux : Nat → List Char → Option (List Char × List Char)
  | 0, _ => none
  | _ + 1, [] => none
  | fuel + 1, c :: rest =>
    if c == '"' then some ([], rest)
    else if c == '\\' then
      match rest with
      | [] => none
      | e :: rest' =>
        if e == '"' || e == '\\' || e == '/' then
          (parseJsonStringAux fuel rest').map (fun (s, r) => (e :: s, r))
        else if e == 'b' then
          (parseJsonStringAux fuel rest').map (fun (s, r) => ('\x08' :: s, r))
        else if e == 'f' then
          (parseJsonStringAux fuel rest').map (fun (s, r) => ('\x0c' :: s, r))
        else if e == 'n' then
          (parseJsonStringAux fuel rest').map (fun (s, r) => ('\n' :: s, r))
        else if e == 'r' then
          (parseJsonStringAux fuel rest').map (fun (s, r) => ('\r' :: s, r))
        else if e == 't' then
          (parseJsonStringAux fuel rest').map (fun (s, r) => ('\t' :: s, r))
        else if e == 'u' then
          match rest' with
          | h1 :: h2 :: h3 :: h4 :: rest'' =>
            match hexVal h1, hexVal h2, hexVal h3, hexVal h4 with
            | some a, some b, some c', some d =>
              let n := ((a * 16 + b) * 16 + c') * 16 + d
              if n.isValidChar then
                (parseJsonStringAux fuel rest'').map
                  (fun (s, r) => (Char.ofNat n :: s, r))
              else none
            | _, _, _, _ => none
          | _ => none
        else none
    else if c.val < 0x20 then none
    else (parseJsonStringAux fuel rest).map (fun (s, r) => (c :: s, r))

/-- Lex a JSON number, returning its raw text and the remaining input. -/
def lexJsonNumber (cs : List Char) : Option (List Char × List Char) :=
  let (sign, cs₁) :=
    if isPrefixOfL ['-'] cs then (['-'], cs.drop 1) else (([] : List Char), cs)
  let intPart := cs₁.takeWhile Char.isDigit
  let afterInt := cs₁.drop intPart.length
  if intPart.isEmpty then none
  else if intPart.length > 1 && intPart.headD '0' == '0' then none
  else
    match afterInt with
    | '.' :: ds =>
      let digits := ds.takeWhile Char.isDigit
      if digits.isEmpty then none
      else lexJsonExpPart (sign ++ intPart ++ '.' :: digits) (ds.drop digits.length)
    | _ => lexJsonExpPart (sign ++ intPart) afterInt
where
  /-- Lex the optional exponent part. -/
  lexJsonExpPart (raw : List Char) (cs : List Char) : Option (List Char × List Char) :=
    match cs with
    | 'e' :: rest | 'E' :: rest =>
      let (esign, rest₁) :=
        match rest with
        | '+' :: r => (['+'], r)
        | '-' :: r => (['-'], r)
        | _ => (([] : List Char), rest)
      let digits := rest₁.takeWhile Char.isDigit
      if digits.isEmpty then none
      else some (raw ++ [cs.headD 'e'] ++ esign ++ digits, rest₁.drop digits.length)
    | _ => some (raw, cs)

/-- Parsing mode of the recursive-descent JSON parser: a value, the members
of an object (accumulated so far), or the elements of an array. -/
inductive PMode where
  | value
  | members (acc : JObj)
  | elems (acc : JArr)

/-- The recursive-descent core of `JSON.parse` (fuel-indexed; the wrapper
supplies sufficient fuel).  Duplicate object keys keep the first key's
position with the later value, as JS property assignment does. -/
def parseJ : Nat → PMode → List Char → Option (JValue × List Char)
  | 0, _, _ => none
  | fuel + 1, .value, cs =>
    let cs := skipJsonWS cs
    match cs with
    | [] => none
    | c :: rest =>
      if c == '{' then
        let r := skipJsonWS rest
        match r with
        | '}' :: r' => some (.obj .nil, r')
        | _ => parseJ fuel (.members .nil) rest
      else if c == '[' then
        let r := skipJsonWS rest
        match r with
        | ']' :: r' => some (.arr .nil, r')
        | _ => parseJ fuel (.elems .nil) rest
      else if c == '"' then
        (parseJsonStringAux (rest.length + 1) rest).map
          (fun (s, r) => (.str ⟨s⟩, r))
      else if isPrefixOfL "null".data cs then some (.null, cs.drop 4)
      else if isPrefixOfL "true".data cs then some (.bool true, cs.drop 4)
      else if isPrefixOfL "false".data cs then some (.bool false, cs.drop 5)
      else
        (lexJsonNumber cs).map (fun (raw, r) => (.num ⟨raw⟩, r))
  | fuel + 1, .members acc, cs =>
    let cs := skipJsonWS cs
    match cs with
    | '"' :: rest =>
      match parseJsonStringAux (rest.length + 1) rest with
      | none => none
      | some (key, r₁) =>
        match skipJsonWS r₁ with
        | ':' :: r₂ =>
          match parseJ fuel .value r₂ with
          | none => none
          | some (v, r₃) =>
            let acc' := acc.set ⟨key⟩ v
            match skipJsonWS r₃ with
            | ',' :: r₄ => parseJ fuel (.members acc') r₄
            | '}' :: r₄ => some (.obj acc', r₄)
            | _ => none
        | _ => none
    | _ => none
  | fuel + 1, .elems acc, cs =>
    match parseJ fuel .value cs with
    | none => none
    | some (v, r₁) =>
      match skipJsonWS r₁ with
      | ',' :: r₂ => parseJ fuel (.elems (acc.append (.cons v .nil))) r₂
      | ']' :: r₂ => some (.arr (acc.append (.cons v .nil)), r₂)
      | _ => none

/-- `JSON.parse`: parse one value and require only whitespace after it.
`none` models a thrown `SyntaxError`. -/
def jsonParse (s : String) : Option JValue :=
  match parseJ (s.data.length * 2 + 8) .value s.data with
  | some (v, rest) => if (skipJsonWS rest).isEmpty then some v else none
  | none => none

/-! ### `JSON.stringify(value, null, 2)` -/

/-- Lowercase hex digit. -/
def hexDigit (n : Nat) : Char :=
  if n < 10 then Char.ofNat ('0'.toNat + n) else Char.ofNat ('a'.toNat + n - 10)

/-- Escape one character for a JSON string literal, as `JSON.stringify`
does. -/
def escapeJsonChar (c : Char) : List Char :=
  if c == '"' then ['\\', '"']
  else if c == '\\' then ['\\', '\\']
  else if c.val == 8 then ['\\', 'b']
  else if c.val == 9 then ['\\', 't']
  else if c.val == 10 then ['\\', 'n']
  else if c.val == 12 then ['\\', 'f']
  else if c.val == 13 then ['\\', 'r']
  else if c.val < 0x20 then
    ['\\', 'u', '0', '0', hexDigit (c.toNat / 16), hexDigit (c.toNat % 16)]
  else [c]

/-- A quoted JSON string literal. -/
def quoteJsonString (s : String) : List Char :=
  '"' :: s.data.flatMap escapeJsonChar ++ ['"']

mutual
/-- `JSON.stringify(v, null, 2)` on the character level.  `ind` is the
indentation of the current closing bracket; items are indented two spaces
further. -/
def stringifyV : List Char → JValue → List Char
  | _, .null => "null".data
  | _, .bool b => if b then "true".data else "false".data
  | _, .num raw => raw.data
  | _, .str s => quoteJsonString s
  | _, .arr .nil => "[]".data
  | ind, .arr (.cons x xs) =>
    '[' :: '\n' :: stringifyArrItems ind (.cons x xs) ++ '\n' :: ind ++ [']']
  | _, .obj .nil => "\x7b\x7d".data
  | ind, .obj (.cons k v fs) =>
    '{' :: '\n' :: stringifyObjItems ind (.cons k v fs) ++ '\n' :: ind ++ ['}']

/-- The comma-and-newline separated items of an array. -/
def stringifyArrItems : List Char → JArr → List Char
  | _, .nil => []
  | ind, .cons x xs =>
    (ind ++ "  ".data) ++ stringifyV (ind ++ "  ".data) x ++
      (match xs with
       | .nil => []
       | .cons _ _ => ',' :: '\n' :: stringifyArrItems ind xs)

/-- The comma-and-newline separated members of an object. -/
def stringifyObjItems : List Char → JObj → List Char
  | _, .nil => []
  | ind, .cons k v fs =>
    (ind ++ "  ".data) ++ quoteJsonString k ++ ':' :: ' ' ::
      stringifyV (ind ++ "  ".data) v ++
      (match fs with
       | .nil => []
       | .cons _ _ _ => ',' :: '\n' :: stringifyObjItems ind fs)
end

/-- `JSON.stringify(v, null, 2)`. -/
def jsonStringify2 (v : JValue) : String := ⟨stringifyV [] v⟩

/-! ### `deepmerge` and `sortObjectKeys` -/

/-- `deepmerge`'s `isMergeableObject` default: arrays and plain objects. -/
def isMergeableJ : JValue → Bool
  | .arr _ => true
  | .obj _ => true
  | _ => false

/-- The own enumerable entries `deepmerge` iterates and clones: object
fields, or index entries for an array (a property test on any other value is
caught by the library and treated as absent). -/
def jsEntries : JValue → JObj
  | .obj fields => fields
  | .arr xs => xs.idxEntries 0
  | _ => .nil

mutual
/-- The `deepmerge` package's default merge: arrays concatenate (target then
source), objects merge key-wise with the source winning on non-mergeable
values, anything else is replaced by the source (cloning is the identity in
the pure model). -/
def deepmergeJ (t : JValue) : JValue → JValue
  | .arr bs =>
    match t with
    | .arr as' => .arr (as'.append bs)
    | _ => .arr bs
  | .obj sf =>
    .obj (deepmergeFields t (if isMergeableJ t then jsEntries t else .nil) sf)
  | s => s

/-- Walk the source fields: a field whose value is mergeable and whose key is
also on the target merges recursively, otherwise the source value is taken. -/
def deepmergeFields (t : JValue) (dest : JObj) : JObj → JObj
  | .nil => dest
  | .cons k sv rest =>
    let newVal :=
      if isMergeableJ sv && (jsEntries t).hasKey k then
        deepmergeJ ((jsEntries t).getD k .null) sv
      else sv
    deepmergeFields t (dest.set k newVal) rest
end

/-- Strict UTF-16 code-unit units of a string — what `Array.prototype.sort`'s
default comparator compares. -/
def utf16Units (s : String) : List Nat :=
  s.data.flatMap fun c =>
    if c.toNat < 0x10000 then [c.toNat]
    else [0xd800 + (c.toNat - 0x10000) / 0x400, 0xdc00 + (c.toNat - 0x10000) % 0x400]

/-- Strict lexicographic order on unit lists. -/
def lexLtNat : List Nat → List Nat → Bool
  | [], [] => false
  | [], _ :: _ => true
  | _ :: _, [] => false
  | a :: as', b :: bs => if a < b then true else if a == b then lexLtNat as' bs else false

/-- Strict string order used by `Array.prototype.sort`'s default comparator. -/
def jsStrLt (a b : String) : Bool := lexLtNat (utf16Units a) (utf16Units b)

/-- Non-strict counterpart (not greater). -/
def jsStrLe (a b : String) : Bool := !jsStrLt b a

/-- Stable insertion of a field into a key-sorted field list. -/
def insertByKey (k : String) (v : JValue) : JObj → JObj
  | .nil => .cons k v .nil
  | .cons k' v' rest =>
    if jsStrLt k k' then .cons k v (.cons k' v' rest)
    else .cons k' v' (insertByKey k v rest)

/-- Stable insertion sort of a field list by key (the effect of sorting
`Object.keys` ascending and rebuilding the object in that order). -/
def sortFieldsByKey : JObj → JObj
  | .nil => .nil
  | .cons k v rest => insertByKey k v (sortFieldsByKey rest)

/-- Index/character own entries, for `Object.keys` on a string. -/
def strOwnEntries (s : String) : JObj :=
  (JArr.idxEntries (s.data.foldr (fun c acc => JArr.cons (.str ⟨[c]⟩) acc) .nil) 0)

/-- `sortObjectKeys` from the source: sort the keys ascending and rebuild the
object in that order.  `Object.keys(null)` throws, hence `none`; primitives
enumerate index entries (strings) or nothing (numbers, booleans). -/
def sortObjectKeys : JValue → Option JValue
  | .null => none
  | .obj fields => some (.obj (sortFieldsByKey fields))
  | .arr xs => some (.obj (sortFieldsByKey (xs.idxEntries 0)))
  | .str s => some (.obj (sortFieldsByKey (strOwnEntries s)))
  | .bool _ => some (.obj .nil)
  | .num _ => some (.obj .nil)

/-- Adjacent-sortedness of a field list under the non-strict key order. -/
def keysSortedB : JObj → Bool
  | .nil => true
  | .cons _ _ .nil => true
  | .cons k _ (.cons k' v' rest) => jsStrLe k k' && keysSortedB (.cons k' v' rest)

/-! ### The pure core of `mergePackageJson` -/

/-- Property read `v[k]` as JS performs it: a throw (`none`) on `null`,
`undefined` (`some none`) on other primitives without such an own entry. -/
def jsReadProp : JValue → String → Option (Option JValue)
  | .null, _ => none
  | .obj f, k => some (f.get k)
  | .arr xs, k => some ((JArr.idxEntries xs 0).get k)
  | .str s, k => some ((strOwnEntries s).get k)
  | _, _ => some none

/-- The value computation of `mergePackageJson` between reading the two
descriptor files and writing the result: deep-merge, then
`mergedJson.name = targetJson.name || extraJson.name` (assigning `undefined`
removes the property from the serialised output; assignment on a primitive
result throws in strict mode, and is invisible on an array result), then
re-sort the keys of each of `scripts`, `dependencies` and `devDependencies`
that is present in the result.  `none` models a throw.

`sortKeyStep` is one step of that final sorting loop. -/
def sortKeyStep (acc : JValue) (key : String) : Option JValue :=
  match acc with
  | .obj fields =>
    match fields.get key with
    | some v => do
      let sorted ← sortObjectKeys v
      pure (JValue.obj (fields.set key sorted))
    | none => pure acc
  | _ => pure acc

/-- The value computation of `mergePackageJson`; see the comment above. -/
def mergePackageJsonValue (targetJson extraJson : JValue) : Option JValue := do
  let merged := deepmergeJ targetJson extraJson
  let tn ← jsReadProp targetJson "name"
  let nameVal ← if truthyOpt tn then pure tn else jsReadProp extraJson "name"
  let merged ←
    match merged with
    | .obj fields =>
      pure (JValue.obj
        (match nameVal with
         | some v => fields.set "name" v
         | none => fields.del "name"))
    | .arr xs => pure (JValue.arr xs)
    | _ => none
  List.foldlM sortKeyStep merged ["scripts", "dependencies", "devDependencies"]

/-! ### `updatePackageJson` -/

/-- A version directive: one version string for the workspace sentinel, or a
per-dependency mapping. -/
inductive VersionDirective where
  | single (v : String)
  | map (entries : List (String × String))

/-- `pkg.name = n` under strict mode: fine on objects, invisible on arrays,
a `TypeError` on primitives. -/
def jsSetNameStrict (pkg : JValue) (n : String) : Option JValue :=
  match pkg with
  | .obj f => some (.obj (f.set "name" (.str n)))
  | .arr xs => some (.arr xs)
  | _ => none

/-- The mapping branch of `updatePackageJson`: for each directive entry, if
`dependencies` (resp. `devDependencies`) already has that key with a truthy
value, overwrite it; keys not present are not inserted.  Reading a property
of `null` throws; overwriting array-shaped dependency containers is a model
boundary (no claim reaches it). -/
def applyVersionMap (pkg : JValue) : List (String × String) → Option JValue
  | [] => some pkg
  | (n, ver) :: rest =>
    match pkg with
    | .null => none
    | .obj fields =>
      let fields₁ :=
        match fields.get "dependencies" with
        | some (.obj deps) =>
          if truthyOpt (deps.get n) then
            fields.set "dependencies" (.obj (deps.set n (.str ver)))
          else fields
        | _ => fields
      let fields₂ :=
        match fields₁.get "devDependencies" with
        | some (.obj deps) =>
          if truthyOpt (deps.get n) then
            fields₁.set "devDependencies" (.obj (deps.set n (.str ver)))
          else fields₁
        | _ => fields₁
      applyVersionMap (.obj fields₂) rest
    | other => applyVersionMap other rest

/-- `updatePackageJson` from the source, as a function from the file's
content to the content written back (`none` models a throw, e.g. a JSON
parse error).  For a single-string version the workspace sentinel is
replaced textually before parsing; for a mapping, existing dependencies are
overwritten after parsing; the name `"."` derives the package name from the
containing directory's name (`dirName`, the basename of the file's parent
directory), any other non-empty name overwrites; an empty name is falsy and
ignored. -/
def updatePackageJsonContent (content : String) (version : Option VersionDirective)
    (name : Option String) (dirName : String) : Option String := do
  let content₁ :=
    match version with
    | some (.single v) => applyVersionString content v
    | _ => content
  let pkg ← jsonParse content₁
  let pkg ←
    match version with
    | some (.map entries) => applyVersionMap pkg entries
    | _ => pure pkg
  let pkg ←
    match name with
    | some n =>
      if n == "." then
        if dirName.length > 0 then jsSetNameStrict pkg dirName else pure pkg
      else if n != "" then jsSetNameStrict pkg n
      else pure pkg
    | none => pure pkg
  pure (jsonStringify2 pkg ++ "\n")

/-! ## `replacePlaceholder` and Markdown detection -/

/-- The regex metacharacters outside the modelled fragment.  The source
builds `new RegExp(`{{ KEY }}`, 'g')` from the raw mapping key: a key whose
characters are all regex-literal, or the `.` wildcard, compiles in the model
(the brace-and-space wrapper is always literal); other metacharacters are a
model boundary. -/
def regexMetaChars : List Char :=
  ['\\', '^', '$', '*', '+', '?', '(', ')', '[', ']', '{', '}', '|']

/-- Compile one key character. -/
def compileKeyAtom (c : Char) : Option RAtom :=
  if regexMetaChars.contains c then none
  else if c == '.' then some .dot
  else some (.lit c)

/-- Compile the pattern `{{ KEY }}` that `replacePlaceholder` builds from a
mapping key. -/
def compileKeyPattern (key : String) : Option (List RAtom) :=
  (key.data.mapM compileKeyAtom).map
    (fun ks => litAtoms "\x7b\x7b " ++ ks ++ litAtoms " \x7d\x7d")

/-- `replacePlaceholder` from the source: for every key of the mapping in
order, globally replace the regex `{{ key }}` with the mapped value
(replacement-pattern expansion included).  A key outside the modelled regex
fragment leaves the content unchanged in the model; all theorems below
restrict to compiling keys. -/
def replacePlaceholder (content : String)
    (templateParameters : List (String × String)) : String :=
  templateParameters.foldl
    (fun result kv =>
      match compileKeyPattern kv.1 with
      | some pat => ⟨replaceG pat kv.2.data result.data⟩
      | none => result)
    content

/-- `isMarkdown` from the source. -/
def isMarkdown (file : String) : Bool :=
  endsWithL ".md".data file.data || endsWithL ".mdx".data file.data
/-! ## The filesystem tree and `copyFolder`

A directory's listing is an insertion-ordered association list of child
names to trees (`FSList`).  The copy functions return `Except d d`: `.ok`
carries the destination listing on success, `.error` carries the
partially-written listing at the point where a filesystem or JSON error was
thrown (the code performs no rollback). -/

mutual
/-- An in-memory filesystem tree. -/
inductive FSTree where
  | file (content : String)
  | dir (children : FSList)

/-- A directory listing. -/
inductive FSList where
  | nil
  | cons (name : String) (tree : FSTree) (rest : FSList)
end

/-- Listing lookup. -/
def FSList.get : FSList → String → Option FSTree
  | .nil, _ => none
  | .cons n t rest, k => if n == k then some t else rest.get k

/-- Listing entry test. -/
def FSList.hasKey : FSList → String → Bool
  | .nil, _ => false
  | .cons n _ rest, k => n == k || rest.hasKey k

/-- Write a child: update the first matching name in place, else append. -/
def FSList.set : FSList → String → FSTree → FSList
  | .nil, k, t => .cons k t .nil
  | .cons n t' rest, k, t =>
    if n == k then .cons n t rest else .cons n t' (rest.set k t)

/-- Whether every child of a listing is a directory (used to state that the
copy of such a listing is insensitive to the non-propagated options). -/
def FSList.allDirs : FSList → Bool
  | .nil => true
  | .cons _ (.dir _) rest => rest.allDirs
  | .cons _ (.file _) _ => false

/-- Options of `copyFolder` (the fields of its options object). -/
structure CopyOptions where
  version : Option VersionDirective := none
  packageName : Option String := none
  templateParameters : Option (List (String × String)) := none
  isMergePackageJson : Bool := false
  skipFiles : List String := []

/-- The rename table (`renameFiles`): templates store the gitignore dotfile
under a visible name. -/
def renameFile (n : String) : String :=
  if n == "gitignore" then ".gitignore" else n

/-- `allSkipFiles`: the conventional always-skipped names plus the
caller-supplied skip list. -/
def allSkipFiles (opts : CopyOptions) : List String :=
  "node_modules" :: "dist" :: opts.skipFiles

/-- The options passed to the recursive `copyFolder` call for a directory
child: the source forwards `templateParameters`, `version` and `skipFiles`
only, so the descriptor-merge flag and the package name are absent in every
recursive call. -/
def recursionOptions (opts : CopyOptions) : CopyOptions :=
  { version := opts.version
    templateParameters := opts.templateParameters
    skipFiles := opts.skipFiles }

/-- `mergePackageJson` from the source at the file level, acting on the
destination listing: a silent no-op when the destination has no
`package.json`; otherwise both descriptors are parsed, merged
(`mergePackageJsonValue`), and the result is written back with two-space
indentation and a trailing newline.  Reading a directory, a parse error, or
a merge-level throw aborts. -/
def mergePackageJsonFS (dest : FSList) (extraContent : String) :
    Except FSList FSList :=
  match dest.get "package.json" with
  | none => .ok dest
  | some (.dir _) => .error dest
  | some (.file target) =>
    match jsonParse target, jsonParse extraContent with
    | some tj, some ej =>
      match mergePackageJsonValue tj ej with
      | some m => .ok (dest.set "package.json" (.file (jsonStringify2 m ++ "\n")))
      | none => .error dest
    | _, _ => .error dest

mutual
/-- A fuel bound for the copy loop: more than the number of nodes of the
source. -/
def fsTreeFuel : FSTree → Nat
  | .file _ => 2
  | .dir children => 2 + fsListFuel children

/-- Fuel for a listing. -/
def fsListFuel : FSList → Nat
  | .nil => 1
  | .cons _ t rest => 1 + fsTreeFuel t + fsListFuel rest
end

/-- The loop body of `copyFolder` (fuel-indexed; the wrapper supplies
sufficient fuel, and exhausted fuel aborts with the destination unchanged).
`toName` is the name of the destination directory itself (used by
`updatePackageJson` for the `"."` package name).  For each child of the
source, in order: skipped names are dropped entirely; a directory child is
recursed into with `recursionOptions` (creating the destination directory;
an existing file there makes `mkdirSync` throw); a `package.json` child is
structurally merged when requested and a destination descriptor exists, and
copied verbatim otherwise, then patched by `updatePackageJson`; any other
file is copied, with placeholder substitution applied to Markdown files when
a mapping was supplied. -/
def copyChildrenGo : Nat → CopyOptions → String → FSList → FSList →
    Except FSList FSList
  | 0, _, _, _, acc => .error acc
  | _ + 1, _, _, .nil, acc => .ok acc
  | fuel + 1, opts, toName, .cons name child rest, acc =>
    if (allSkipFiles opts).contains name then
      copyChildrenGo fuel opts toName rest acc
    else
      let distName := renameFile name
      match child with
      | .dir sub =>
        match acc.get distName with
        | some (.file _) => .error acc
        | existing =>
          let dstChildren := match existing with
            | some (.dir ch) => ch
            | _ => .nil
          match copyChildrenGo fuel (recursionOptions opts) distName sub dstChildren with
          | .ok ch' => copyChildrenGo fuel opts toName rest (acc.set distName (.dir ch'))
          | .error ch' => .error (acc.set distName (.dir ch'))
      | .file content =>
        if name == "package.json" then
          if opts.isMergePackageJson && acc.hasKey "package.json" then
            match mergePackageJsonFS acc content with
            | .error acc' => .error acc'
            | .ok acc' =>
              match acc'.get "package.json" with
              | some (.file written) =>
                match updatePackageJsonContent written opts.version opts.packageName toName with
                | some updated =>
                  copyChildrenGo fuel opts toName rest
                    (acc'.set "package.json" (.file updated))
                | none => .error acc'
              | _ => .error acc'
          else
            match acc.get distName with
            | some (.dir _) => .error acc
            | _ =>
              let acc₁ := acc.set distName (.file content)
              match updatePackageJsonContent content opts.version opts.packageName toName with
              | some updated =>
                copyChildrenGo fuel opts toName rest (acc₁.set distName (.file updated))
              | none => .error acc₁
        else
          match acc.get distName with
          | some (.dir _) => .error acc
          | _ =>
            let written :=
              match opts.templateParameters with
              | some params =>
                if isMarkdown distName then replacePlaceholder content params else content
              | none => content
            copyChildrenGo fuel opts toName rest (acc.set distName (.file written))

/-- `copyFolder` from the source, on the already-created destination
directory listing (`fs.mkdirSync(to)` of the top-level call; `toName` is the
destination directory's basename). -/
def copyFolder (opts : CopyOptions) (toName : String)
    (srcChildren : FSList) (dst : FSList) : Except FSList FSList :=
  copyChildrenGo (fsListFuel srcChildren) opts toName srcChildren dst

/-- The destination listing of a copy result, whether or not an error was
thrown mid-copy. -/
def destOf (r : Except FSList FSList) : FSList :=
  match r with
  | .ok d => d
  | .error d => d

/-- Child lookup in a destination listing, along a path. -/
def lookupPathC (children : FSList) : List String → Option FSTree
  | [] => none
  | [n] => children.get n
  | n :: rest =>
    match children.get n with
    | some (.dir ch) => lookupPathC ch rest
    | _ => none

/-- The content of the file at a path, if a file is there. -/
def contentAtC (children : FSList) (p : List String) : Option String :=
  match lookupPathC children p with
  | some (.file c) => some c
  | _ => none

/-- Modelled from the claim's words, for comparison with `copyChildrenGo`:
the same loop, except that the recursive call for a directory child receives
the very same options as the parent call (descriptor-merge flag and package
name included). -/
def copyChildrenSameOptsGo : Nat → CopyOptions → String → FSList → FSList →
    Except FSList FSList
  | 0, _, _, _, acc => .error acc
  | _ + 1, _, _, .nil, acc => .ok acc
  | fuel + 1, opts, toName, .cons name child rest, acc =>
    if (allSkipFiles opts).contains name then
      copyChildrenSameOptsGo fuel opts toName rest acc
    else
      let distName := renameFile name
      match child with
      | .dir sub =>
        match acc.get distName with
        | some (.file _) => .error acc
        | existing =>
          let dstChildren := match existing with
            | some (.dir ch) => ch
            | _ => .nil
          match copyChildrenSameOptsGo fuel opts distName sub dstChildren with
          | .ok ch' => copyChildrenSameOptsGo fuel opts toName rest (acc.set distName (.dir ch'))
          | .error ch' => .error (acc.set distName (.dir ch'))
      | .file content =>
        if name == "package.json" then
          if opts.isMergePackageJson && acc.hasKey "package.json" then
            match mergePackageJsonFS acc content with
            | .error acc' => .error acc'
            | .ok acc' =>
              match acc'.get "package.json" with
              | some (.file written) =>
                match updatePackageJsonContent written opts.version opts.packageName toName with
                | some updated =>
                  copyChildrenSameOptsGo fuel opts toName rest
                    (acc'.set "package.json" (.file updated))
                | none => .error acc'
              | _ => .error acc'
          else
            match acc.get distName with
            | some (.dir _) => .error acc
            | _ =>
              let acc₁ := acc.set distName (.file content)
              match updatePackageJsonContent content opts.version opts.packageName toName with
              | some updated =>
                copyChildrenSameOptsGo fuel opts toName rest (acc₁.set distName (.file updated))
              | none => .error acc₁
        else
          match acc.get distName with
          | some (.dir _) => .error acc
          | _ =>
            let written :=
              match opts.templateParameters with
              | some params =>
                if isMarkdown distName then replacePlaceholder content params else content
              | none => content
            copyChildrenSameOptsGo fuel opts toName rest (acc.set distName (.file written))

/-- The claim-side `copyFolder` that propagates all options to directory
children. -/
def copyFolderSameOpts (opts : CopyOptions) (toName : String)
    (srcChildren : FSList) (dst : FSList) : Except FSList FSList :=
  copyChildrenSameOptsGo (fsListFuel srcChildren) opts toName srcChildren dst

/-! ## Documentation fragment parsing and merging -/

/-- One parsed section of a documentation fragment. -/
structure SectionData where
  title : String
  level : Nat
  content : String
  deriving Repr, DecidableEq

/-- The heading regex of `parseAgentsContent`: one or two hash marks, then
one or more whitespace characters, then at least one character, anchored at
both ends.  `.` does not match line terminators and the anchors are exact,
so a heading whose text part contains a line terminator (for instance the
carriage return of a CRLF line) does not match; when everything after the
hash marks is whitespace, the greedy whitespace run backtracks one character
and the title group is that character alone. -/
def headingMatch (line : String) : Option (Nat × String) :=
  let cs := line.data
  let h := (cs.takeWhile (· == '#')).length
  if h == 1 || h == 2 then
    let rest := cs.drop h
    let w := (rest.takeWhile isJsWS).length
    if w == 0 then none
    else
      let body := rest.drop w
      if !body.isEmpty then
        if body.any isJsLineTerm then none else some (h, ⟨body⟩)
      else
        if rest.length ≥ 2 && !isJsLineTerm (rest.getLastD ' ') then
          some (h, ⟨[rest.getLastD ' ']⟩)
        else none
  else none

/-- The loop of `parseAgentsContent`: heading lines of depth 1 or 2 open a
new section (flushing the previous one, trimmed, under its composite key);
other lines accumulate into the current section's body, and lines before the
first heading are dropped. -/
def parseAgentsLoop : List String → List (String × SectionData) → String →
    String → Nat → List String → List (String × SectionData)
  | [], sections, currentKey, currentTitle, currentLevel, currentContent =>
    if currentKey != "" then
      assocSet sections currentKey
        ⟨currentTitle, currentLevel, jsTrim (joinNL currentContent)⟩
    else sections
  | line :: rest, sections, currentKey, currentTitle, currentLevel, currentContent =>
    match headingMatch line with
    | some (lvl, rawTitle) =>
      let sections' :=
        if currentKey != "" then
          assocSet sections currentKey
            ⟨currentTitle, currentLevel, jsTrim (joinNL currentContent)⟩
        else sections
      let t := jsTrim rawTitle
      parseAgentsLoop rest sections' (toString lvl ++ "-" ++ jsToLower t) t lvl []
    | none =>
      if currentKey != "" then
        parseAgentsLoop rest sections currentKey currentTitle currentLevel
          (currentContent ++ [line])
      else
        parseAgentsLoop rest sections currentKey currentTitle currentLevel currentContent

/-- `parseAgentsContent` from the source. -/
def parseAgentsContent (content : String) : List (String × SectionData) :=
  parseAgentsLoop (jsSplitChar '\n' content) [] "" "" 0 []

/-- One section of the merged document: registration title and level, and
the deduplicated body variants collected so far. -/
structure MergedSection where
  title : String
  level : Nat
  contents : List String
  deriving Repr, DecidableEq

/-- Append a body variant to the section with the given key. -/
def pushContent (acc : List (String × MergedSection)) (k : String) (c : String) :
    List (String × MergedSection) :=
  acc.map fun p =>
    if p.1 == k then (p.1, ⟨p.2.title, p.2.level, p.2.contents ++ [c]⟩) else p

/-- The inner step of `mergeAgentsFiles`: register the key if new (with the
first-seen title and level and no body variants), then append the body if it
is non-empty and not already present. -/
def registerAndAppend (acc : List (String × MergedSection))
    (kv : String × SectionData) : List (String × MergedSection) :=
  let acc₁ :=
    if assocHas acc kv.1 then acc
    else acc ++ [(kv.1, ⟨kv.2.title, kv.2.level, []⟩)]
  if kv.2.content != "" &&
      !((assocGetD acc₁ kv.1 ⟨"", 0, []⟩).contents.contains kv.2.content) then
    pushContent acc₁ kv.1 kv.2.content
  else acc₁

/-- The section map built by `mergeAgentsFiles` over the fragments in
discovery order (empty fragments are skipped). -/
def mergeAllSections (agentsFiles : List String) : List (String × MergedSection) :=
  agentsFiles.foldl
    (fun acc fileContent =>
      if fileContent == "" then acc
      else (parseAgentsContent fileContent).foldl registerAndAppend acc)
    []

/-- Render one merged section: heading line, blank line, then each body
variant followed by a blank line. -/
def renderSection (kv : String × MergedSection) : List String :=
  (String.mk (List.replicate kv.2.level '#') ++ " " ++ kv.2.title) :: "" ::
    kv.2.contents.flatMap (fun c => [c, ""])

/-- `mergeAgentsFiles` from the source. -/
def mergeAgentsFiles (agentsFiles : List String) : String :=
  jsTrim (joinNL ((mergeAllSections agentsFiles).flatMap renderSection))

/-! ## Specification-side helpers for the documentation-merge claims -/

/-- Keep the first occurrence of each string, dropping strings already seen. -/
def dedupFirstAux (seen : List String) : List String → List String
  | [] => []
  | x :: xs =>
    if seen.contains x then dedupFirstAux seen xs
    else x :: dedupFirstAux (x :: seen) xs

/-- First-occurrence deduplication of a list of strings. -/
def dedupFirst (l : List String) : List String := dedupFirstAux [] l

/-- The parsed entries contributed by a fragment list in discovery order
(the concatenation of each non-empty fragment's parse, in fragment order). -/
def fragmentEntries (agentsFiles : List String) : List (String × SectionData) :=
  (agentsFiles.filter (fun f => f != "")).flatMap parseAgentsContent

/-- The body-variant list of the merged section map at a key. -/
def contentsAt (m : List (String × MergedSection)) (k : String) : List String :=
  (assocGetD m k ⟨"", 0, []⟩).contents

/-- The flush events of `parseAgentsContent`, in order, duplicates included:
the specification-side description of its loop, for the overwrite claim. -/
def flushedSectionsLoop : List String → String → String → Nat → List String →
    List (String × SectionData)
  | [], currentKey, currentTitle, currentLevel, currentContent =>
    if currentKey != "" then
      [(currentKey, ⟨currentTitle, currentLevel, jsTrim (joinNL currentContent)⟩)]
    else []
  | line :: rest, currentKey, currentTitle, currentLevel, currentContent =>
    match headingMatch line with
    | some (lvl, rawTitle) =>
      let flushed :=
        if currentKey != "" then
          [(currentKey, ⟨currentTitle, currentLevel, jsTrim (joinNL currentContent)⟩)]
        else []
      let t := jsTrim rawTitle
      flushed ++ flushedSectionsLoop rest (toString lvl ++ "-" ++ jsToLower t) t lvl []
    | none =>
      if currentKey != "" then
        flushedSectionsLoop rest currentKey currentTitle currentLevel
          (currentContent ++ [line])
      else
        flushedSectionsLoop rest currentKey currentTitle currentLevel currentContent

/-- The ordered flush events of a fragment's parse. -/
def flushedSections (content : String) : List (String × SectionData) :=
  flushedSectionsLoop (jsSplitChar '\n' content) "" "" 0 []

/-! # Theorems

General lemmas about the replacement engine, then one theorem (plus, where
required, a counterexample and a witness) per specification claim. -/

theorem matchesAt_map_lit (p s : List Char) :
    matchesAt (p.map RAtom.lit) s = isPrefixOfL p s := by
  induction p generalizing s with
  | nil => simp [matchesAt, isPrefixOfL]
  | cons c cs ih =>
    cases s with
    | nil => simp [matchesAt, isPrefixOfL]
    | cons d ds => simp [matchesAt, isPrefixOfL, atomMatches, ih]

theorem expandRepl_cons_ne (b m a : List Char) (c : Char) (rest : List Char)
    (hc : c ≠ '$') :
    expandRepl b m a (c :: rest) = c :: expandRepl b m a rest := by
  rw [expandRepl.eq_def]
  split
  · simp_all
  · simp_all
  · simp_all

theorem expandRepl_no_dollar (b m a repl : List Char) (h : '$' ∉ repl) :
    expandRepl b m a repl = repl := by
  induction repl with
  | nil => rfl
  | cons c rest ih =>
    rw [List.mem_cons, not_or] at h
    obtain ⟨hc, hrest⟩ := h
    rw [expandRepl_cons_ne b m a c rest (fun e => hc e.symm), ih hrest]

theorem replaceGAux_map_lit (p repl orig : List Char) (h : '$' ∉ repl) :
    ∀ fuel i, replaceGAux (p.map RAtom.lit) repl orig fuel i =
      litReplaceAllAux p repl orig fuel i := by
  intro fuel
  induction fuel with
  | zero => intro i; rfl
  | succ n ih =>
    intro i
    simp only [replaceGAux, litReplaceAllAux, matchesAt_map_lit, List.length_map]
    cases horig : orig.drop i with
    | nil => rfl
    | cons c rest' =>
      by_cases hm : isPrefixOfL p (c :: rest') = true
      · simp [hm, expandRepl_no_dollar _ _ _ _ h, ih]
      · simp [hm, ih]

theorem replaceG_litAtoms (p repl s : String) (h : '$' ∉ repl.data) :
    (⟨replaceG (litAtoms p) repl.data s.data⟩ : String) = litReplaceAll s p repl := by
  show (⟨replaceGAux (p.data.map RAtom.lit) repl.data s.data (s.data.length + 1) 0⟩ : String) = _
  rw [replaceGAux_map_lit p.data repl.data s.data h]
  rfl

theorem replaceFirstAux_no_dollar (p repl orig : List Char) (h : '$' ∉ repl) :
    ∀ fuel i, replaceFirstAux p repl orig fuel i =
      litReplaceFirstAux p repl orig fuel i := by
  intro fuel
  induction fuel with
  | zero => intro i; rfl
  | succ n ih =>
    intro i
    simp only [replaceFirstAux, litReplaceFirstAux]
    cases horig : orig.drop i with
    | nil =>
      simp [expandRepl_no_dollar _ _ _ _ h]
    | cons c rest' =>
      by_cases hm : isPrefixOfL p (c :: rest') = true
      · simp [hm, expandRepl_no_dollar _ _ _ _ h]
      · simp [hm, ih]

theorem jsReplaceFirst_no_dollar (s pat repl : String) (h : '$' ∉ repl.data) :
    jsReplaceFirst s pat repl = litReplaceFirst s pat repl := by
  show (⟨replaceFirstAux pat.data repl.data s.data (s.data.length + 1) 0⟩ : String) = _
  rw [replaceFirstAux_no_dollar pat.data repl.data s.data h]
  rfl

/-- C4 counterexample: the claim says the sentinel is replaced with the exact
string `^version` (here `^$&`), but `String.prototype.replace` expands the
dollar sequence in the version, producing `^workspace:*` instead. -/
theorem c4_counterexample :
    applyVersionString "\"rsbuild\": \"workspace:*\"" "$&" =
        "\"rsbuild\": \"^workspace:*\"" ∧
    applyVersionString "\"rsbuild\": \"workspace:*\"" "$&" ≠ "\"rsbuild\": \"^$&\"" := by
  exact ⟨by decide, by decide⟩

/-- C4 (amended): for a version string free of dollar replacement patterns,
applying a single-string version directive replaces every literal occurrence
of the sentinel `workspace:*` in the raw descriptor text — before the text
is parsed — with `^version` when the version contains none of the markers
alpha, beta, rc, canary, nightly, and with the exact version string
otherwise; the spec's two examples are included. -/
theorem c4_version_directive (content v : String) (hv : '$' ∉ v.data) :
    applyVersionString content v =
      litReplaceAll content "workspace:*"
        (if isStableVersion v then "^" ++ v else v) ∧
    (∀ name dirName,
      updatePackageJsonContent content (some (.single v)) name dirName =
        updatePackageJsonContent (applyVersionString content v) none name dirName) ∧
    (isStableVersion v = true ↔
      (¬ jsIncludes v "alpha" ∧ ¬ jsIncludes v "beta" ∧ ¬ jsIncludes v "rc" ∧
        ¬ jsIncludes v "canary" ∧ ¬ jsIncludes v "nightly")) ∧
    applyVersionString "\x7b\"d\": \"workspace:*\"\x7d" "1.2.3" = "\x7b\"d\": \"^1.2.3\"\x7d" ∧
    applyVersionString "\x7b\"d\": \"workspace:*\"\x7d" "1.2.3-canary.0" =
      "\x7b\"d\": \"1.2.3-canary.0\"\x7d" := by
  refine ⟨?_, ?_, ?_, by decide, by decide⟩
  · show (⟨replaceG (litAtoms "workspace:*") _ content.data⟩ : String) = _
    by_cases hs : isStableVersion v
    · rw [if_pos hs]
      refine replaceG_litAtoms "workspace:*" ("^" ++ v) content ?_
      have hd : ("^" ++ v).data = '^' :: v.data := rfl
      rw [hd]
      simpa using hv
    · rw [if_neg hs]
      exact replaceG_litAtoms "workspace:*" v content hv
  · intro name dirName
    rfl
  · simp [isStableVersion]

/-- Witness for C4's amended theorem at the spec's own example input. -/
theorem c4_version_directive_witness :
    applyVersionString "\x7b\"d\": \"workspace:*\"\x7d" "1.2.3" =
      litReplaceAll "\x7b\"d\": \"workspace:*\"\x7d" "workspace:*"
        (if isStableVersion "1.2.3" then "^" ++ "1.2.3" else "1.2.3") :=
  (c4_version_directive "\x7b\"d\": \"workspace:*\"\x7d" "1.2.3" (by decide)).1

/-- C9 counterexample: under yarn only the first `@latest` tag is stripped
(string-pattern `replace` rewrites one occurrence), not every one as the
claim states. -/
theorem c9_counterexample :
    runCommandRewrite "npm create foo@latest bar@latest" "yarn" =
        "yarn create foo bar@latest" ∧
    runCommandRewrite "npm create foo@latest bar@latest" "yarn" ≠
        "yarn create foo bar" := by
  exact ⟨by decide, by decide⟩

/-- C9 (amended): a command beginning with `npm create ` has that first
occurrence replaced per package manager (pnpm, yarn, bun, deno), the first
occurrence of the npm argument separator ` -- --` reduced to ` --`, and
under yarn the first (not every) occurrence of `@latest` stripped; commands
without the prefix, or run under npm (or an unrecognised manager), are
executed unchanged. -/
theorem c9_run_command (command pm : String) :
    (isPrefixOfL "npm create ".data command.data = false →
      runCommandRewrite command pm = command) ∧
    (pm = "npm" → runCommandRewrite command pm = command) ∧
    (isPrefixOfL "npm create ".data command.data = true →
      (pm = "pnpm" → runCommandRewrite command pm =
        litReplaceFirst (litReplaceFirst command "npm create " "pnpm create ")
          " -- --" " --") ∧
      (pm = "bun" → runCommandRewrite command pm =
        litReplaceFirst (litReplaceFirst command "npm create " "bun create ")
          " -- --" " --") ∧
      (pm = "deno" → runCommandRewrite command pm =
        litReplaceFirst (litReplaceFirst command "npm create " "deno run -A npm:create-")
          " -- --" " --") ∧
      (pm = "yarn" → runCommandRewrite command pm =
        litReplaceFirst
          (litReplaceFirst (litReplaceFirst command "npm create " "yarn create ")
            " -- --" " --")
          "@latest" "")) := by
  refine ⟨?_, ?_, ?_⟩
  · intro h
    simp [runCommandRewrite, h]
  · intro h
    subst h
    simp only [runCommandRewrite]
    split
    · simp [createReplacements]
    · rfl
  · intro h
    refine ⟨?_, ?_, ?_, ?_⟩ <;> intro hpm <;> subst hpm <;>
      simp [runCommandRewrite, h, createReplacements]
    · rw [jsReplaceFirst_no_dollar command "npm create " "pnpm create " (by decide),
        jsReplaceFirst_no_dollar _ " -- --" " --" (by decide)]
    · rw [jsReplaceFirst_no_dollar command "npm create " "bun create " (by decide),
        jsReplaceFirst_no_dollar _ " -- --" " --" (by decide)]
    · rw [jsReplaceFirst_no_dollar command "npm create " "deno run -A npm:create-" (by decide),
        jsReplaceFirst_no_dollar _ " -- --" " --" (by decide)]
    · rw [jsReplaceFirst_no_dollar command "npm create " "yarn create " (by decide),
        jsReplaceFirst_no_dollar _ " -- --" " --" (by decide),
        jsReplaceFirst_no_dollar _ "@latest" "" (by decide)]

/-- Witness for C9's amended theorem: a pnpm run on a prefixed command. -/
theorem c9_run_command_witness :
    runCommandRewrite "npm create rsbuild@latest -- --dir my-app" "pnpm" =
      litReplaceFirst
        (litReplaceFirst "npm create rsbuild@latest -- --dir my-app"
          "npm create " "pnpm create ")
        " -- --" " --" :=
  ((c9_run_command "npm create rsbuild@latest -- --dir my-app" "pnpm").2.2
    (by decide)).1 rfl

theorem splitCharL_ne_nil (sep : Char) (cs : List Char) : splitCharL sep cs ≠ [] := by
  cases cs with
  | nil => simp [splitCharL]
  | cons c rest =>
    simp only [splitCharL]
    cases h : splitCharL sep rest with
    | nil => simp
    | cons g gs => by_cases hc : (c == sep) = true <;> simp [hc]

theorem splitCharL_of_not_mem (sep : Char) (cs : List Char) (h : sep ∉ cs) :
    splitCharL sep cs = [cs] := by
  induction cs with
  | nil => rfl
  | cons c rest ih =>
    rw [List.mem_cons, not_or] at h
    simp only [splitCharL, ih h.2]
    have hne : (c == sep) = false := beq_eq_false_iff_ne.mpr (fun e => h.1 e.symm)
    simp [hne]

theorem splitCharL_length_of_mem (sep : Char) (cs : List Char) (h : sep ∈ cs) :
    2 ≤ (splitCharL sep cs).length := by
  induction cs with
  | nil => simp at h
  | cons c rest ih =>
    simp only [splitCharL]
    cases hs : splitCharL sep rest with
    | nil => exact absurd hs (splitCharL_ne_nil _ _)
    | cons g gs =>
      by_cases hc : (c == sep) = true
      · simp [hc]
      · have hcs : c ≠ sep := by simpa using hc
        have hmem : sep ∈ rest := by
          rcases List.mem_cons.mp h with h' | h'
          · exact absurd h'.symm hcs
          · exact h'
        have h2 := ih hmem
        rw [hs] at h2
        simp only [List.length_cons] at h2
        change 2 ≤ (if (c == sep) = true then [] :: g :: gs else (c :: g) :: gs).length
        rw [if_neg hc]
        simpa using h2

theorem getLastD_irrel {α : Type} (l : List α) (hl : l ≠ []) (a b : α) :
    l.getLastD a = l.getLastD b := by
  rw [List.getLastD_eq_getLast?, List.getLastD_eq_getLast?]
  cases ho : l.getLast? with
  | none => exact absurd (List.getLast?_eq_none_iff.mp ho) hl
  | some x => rfl

theorem splitCharL_getLastD_slash (cs : List Char) :
    (splitCharL '/' cs).getLastD [] =
      (cs.reverse.takeWhile (fun c => c != '/')).reverse := by
  induction cs with
  | nil => simp [splitCharL]
  | cons c rest ih =>
    cases hs : splitCharL '/' rest with
    | nil => exact absurd hs (splitCharL_ne_nil _ _)
    | cons g gs =>
      rw [hs] at ih
      simp only [splitCharL, hs]
      by_cases hc : (c == '/') = true
      · rw [if_pos hc]
        have hceq : c = '/' := by simpa using hc
        subst hceq
        rw [List.getLastD_cons, ih, List.reverse_cons, List.takeWhile_append]
        by_cases hl : (List.takeWhile (fun c => c != '/') rest.reverse).length
            = rest.reverse.length
        · rw [if_pos hl, (List.takeWhile_prefix _).eq_of_length hl]
          simp
        · rw [if_neg hl]
      · rw [if_neg hc]
        have hcne : c ≠ '/' := by simpa using hc
        rw [List.getLastD_cons, List.reverse_cons, List.takeWhile_append]
        by_cases hmem : '/' ∈ rest
        · have hlen := splitCharL_length_of_mem '/' rest hmem
          rw [hs] at hlen
          have hgs : gs ≠ [] := by
            intro e; subst e; simp at hlen
          have hnl : (List.takeWhile (fun c => c != '/') rest.reverse).length
              ≠ rest.reverse.length := by
            intro e
            have heq : List.takeWhile (fun c => c != '/') rest.reverse = rest.reverse :=
              (List.takeWhile_prefix _).eq_of_length e
            have h2 := List.takeWhile_eq_self_iff.mp heq '/' (by simpa using hmem)
            simp at h2
          rw [if_neg hnl, getLastD_irrel gs hgs (c :: g) g, ← ih, List.getLastD_cons]
        · have hone := splitCharL_of_not_mem '/' rest hmem
          rw [hs] at hone
          injection hone with hg hgs
          subst hg
          subst hgs
          have hfull : (List.takeWhile (fun c => c != '/') g.reverse).length
              = g.reverse.length := by
            have heq : List.takeWhile (fun c => c != '/') g.reverse = g.reverse := by
              rw [List.takeWhile_eq_self_iff]
              intro x hx
              have hxr : x ∈ g := by simpa using hx
              have : x ≠ '/' := fun e => hmem (e ▸ hxr)
              simpa using this
            rw [heq]
          rw [if_pos hfull]
          simp [hcne]

theorem dropWhile_idem {α : Type} (p : α → Bool) (l : List α) :
    (l.dropWhile p).dropWhile p = l.dropWhile p := by
  induction l with
  | nil => rfl
  | cons c l ih =>
    by_cases hc : p c = true
    · simp [List.dropWhile_cons, hc, ih]
    · simp [List.dropWhile_cons, hc]

theorem stripTrailingSlashesL_idem (cs : List Char) :
    stripTrailingSlashesL (stripTrailingSlashesL cs) = stripTrailingSlashesL cs := by
  unfold stripTrailingSlashesL
  rw [List.reverse_reverse, dropWhile_idem]

theorem lastSlashSegment_eq (s : String) :
    lastSlashSegment s = ⟨(s.data.reverse.takeWhile (fun c => c != '/')).reverse⟩ := by
  unfold lastSlashSegment jsSplitChar
  rw [List.getLastD_eq_getLast?, List.getLast?_map]
  cases hg : (splitCharL '/' s.data).getLast? with
  | none => exact absurd (List.getLast?_eq_none_iff.mp hg) (splitCharL_ne_nil _ _)
  | some x =>
    have hx : (splitCharL '/' s.data).getLastD [] = x := by
      rw [List.getLastD_eq_getLast?, hg]; rfl
    rw [splitCharL_getLastD_slash] at hx
    rw [← hx]
    rfl

/-- C7: for every non-empty input, after trimming whitespace and stripping
trailing slashes, a result starting with `@` is used verbatim as both the
package name and the target directory; otherwise the package name is the
final slash-delimited segment of the result and the target directory is the
full result. -/
theorem c7_format_project_name (input : String) (_hne : input ≠ "") :
    (formatProjectName input).targetDir = ⟨stripTrailingSlashesL (jsTrim input).data⟩ ∧
    (isPrefixOfL ['@'] (formatProjectName input).targetDir.data = true →
      (formatProjectName input).packageName = (formatProjectName input).targetDir) ∧
    (isPrefixOfL ['@'] (formatProjectName input).targetDir.data = false →
      (formatProjectName input).packageName =
        lastSlashSegment (formatProjectName input).targetDir) := by
  refine ⟨rfl, ?_, ?_⟩
  · intro h
    have h' : isPrefixOfL ['@'] (stripTrailingSlashesL (jsTrim input).data) = true := h
    unfold formatProjectName
    simp [h']
  · intro h
    have h' : isPrefixOfL ['@'] (stripTrailingSlashesL (jsTrim input).data) = false := h
    unfold formatProjectName
    simp only [h', Bool.false_eq_true, if_false]
    rw [lastSlashSegment_eq]
    show (⟨((stripTrailingSlashesL
        (stripTrailingSlashesL (jsTrim input).data)).reverse.takeWhile
          (fun c => c != '/')).reverse⟩ : String) = _
    rw [stripTrailingSlashesL_idem]

/-- Witness for C7 at a concrete multi-segment path with trailing slashes. -/
theorem c7_format_project_name_witness :
    (formatProjectName " foo/bar// ").packageName =
      lastSlashSegment (formatProjectName " foo/bar// ").targetDir :=
  (c7_format_project_name " foo/bar// " (by decide)).2.2 (by decide)

/-- C10: when a tools option is supplied on the command line, `getTools`
resolves without showing a prompt; the parsed names are filtered to those
that are built-in tools or caller-supplied extra tools, keeping their given
order (a filter is a sublist), and every name that is neither is silently
dropped. -/
theorem c10_cli_tools (tools : Sum String (List String)) (dir template : Option String)
    (extraTools : Option (List ExtraTool)) :
    getTools (some tools) dir template extraTools =
      .resolved (((parseToolsOption (some tools)).getD []).filter (isKnownTool extraTools)) ∧
    (((parseToolsOption (some tools)).getD []).filter (isKnownTool extraTools)).Sublist
      ((parseToolsOption (some tools)).getD []) ∧
    (∀ t, t ∈ ((parseToolsOption (some tools)).getD []).filter (isKnownTool extraTools) ↔
      (t ∈ (parseToolsOption (some tools)).getD [] ∧ isKnownTool extraTools t = true)) ∧
    (∀ t, isKnownTool extraTools t = true ↔
      (t ∈ BUILTIN_TOOLS ∨ ∃ et ∈ extraTools.getD [], et.value = t)) := by
  refine ⟨rfl, List.filter_sublist _, fun t => List.mem_filter, fun t => ?_⟩
  cases extraTools with
  | none => simp [isKnownTool, BUILTIN_TOOLS]
  | some ets => simp [isKnownTool, BUILTIN_TOOLS, List.any_eq_true]

/-- C8 counterexample: substitution is not literal.  A `.` in the key is
compiled as a regex wildcard, so `{{ aXb }}` is rewritten by the key `a.b`
even though the literal token `{{ a.b }}` does not occur; and a `$&` in the
value is a replacement pattern (the matched text), so the token is not
replaced by the mapped value. -/
theorem c8_counterexample :
    replacePlaceholder "\x7b\x7b aXb \x7d\x7d" [("a.b", "v")] = "v" ∧
    replacePlaceholder "\x7b\x7b aXb \x7d\x7d" [("a.b", "v")] ≠
      litReplaceAll "\x7b\x7b aXb \x7d\x7d" "\x7b\x7b a.b \x7d\x7d" "v" ∧
    replacePlaceholder "\x7b\x7b k \x7d\x7d" [("k", "$&")] = "\x7b\x7b k \x7d\x7d" ∧
    replacePlaceholder "\x7b\x7b k \x7d\x7d" [("k", "$&")] ≠
      litReplaceAll "\x7b\x7b k \x7d\x7d" "\x7b\x7b k \x7d\x7d" "$&" := by
  exact ⟨by decide, by decide, by decide, by decide⟩

theorem mapM_compileKeyAtom_safe (l : List Char)
    (h : ∀ c ∈ l, ¬ c ∈ regexMetaChars ∧ c ≠ '.') :
    l.mapM compileKeyAtom = some (l.map RAtom.lit) := by
  induction l with
  | nil => rfl
  | cons c cs ih =>
    obtain ⟨h1, h2⟩ := h c (List.mem_cons_self c cs)
    have hatom : compileKeyAtom c = some (.lit c) := by
      simp [compileKeyAtom, h1, h2]
    rw [List.mapM_cons, hatom, ih (fun c' h' => h c' (List.mem_cons_of_mem _ h'))]
    rfl

theorem compileKeyPattern_safe (key : String)
    (h : ∀ c ∈ key.data, ¬ c ∈ regexMetaChars ∧ c ≠ '.') :
    compileKeyPattern key = some (litAtoms ("\x7b\x7b " ++ key ++ " \x7d\x7d")) := by
  unfold compileKeyPattern
  rw [mapM_compileKeyAtom_safe key.data h]
  show some (litAtoms "\x7b\x7b " ++ key.data.map RAtom.lit ++ litAtoms " \x7d\x7d") = _
  have : ("\x7b\x7b " ++ key ++ " \x7d\x7d").data = "\x7b\x7b ".data ++ key.data ++ " \x7d\x7d".data := by
    simp [String.data_append]
  simp [litAtoms, this]

/-- C8 (amended): for a mapping whose keys contain neither regex
metacharacters nor `.`, and whose values contain no dollar sign, the
substitution pass is exactly the literal global replacement of each token
`{{ key }}` (the key surrounded by one space on each side inside double
braces) by its mapped value, applied for every key in mapping order, and
nothing else in the content changes. -/
theorem c8_placeholder (content : String) (params : List (String × String))
    (hk : ∀ kv ∈ params,
      (∀ c ∈ (kv : String × String).1.data, ¬ c ∈ regexMetaChars ∧ c ≠ '.') ∧
        '$' ∉ kv.2.data) :
    replacePlaceholder content params =
      params.foldl (fun r kv => litReplaceAll r ("\x7b\x7b " ++ kv.1 ++ " \x7d\x7d") kv.2) content := by
  induction params generalizing content with
  | nil => rfl
  | cons kv rest ih =>
    obtain ⟨hkey, hval⟩ := hk kv (List.mem_cons_self _ _)
    have hstep : (match compileKeyPattern kv.1 with
        | some pat => (⟨replaceG pat kv.2.data content.data⟩ : String)
        | none => content) = litReplaceAll content ("\x7b\x7b " ++ kv.1 ++ " \x7d\x7d") kv.2 := by
      rw [compileKeyPattern_safe kv.1 hkey]
      exact replaceG_litAtoms _ _ _ hval
    have h1 : replacePlaceholder content (kv :: rest) =
        replacePlaceholder (litReplaceAll content ("\x7b\x7b " ++ kv.1 ++ " \x7d\x7d") kv.2) rest := by
      unfold replacePlaceholder
      rw [List.foldl_cons]
      congr 1
    rw [h1, ih _ (fun kv' h' => hk kv' (List.mem_cons_of_mem _ h')), List.foldl_cons]

/-- Witness for C8's amended theorem at the orchestrator's actual mapping. -/
theorem c8_placeholder_witness :
    replacePlaceholder "run \x7b\x7b packageManager \x7d\x7d dev" [("packageManager", "pnpm")] =
      [("packageManager", "pnpm")].foldl
        (fun r kv => litReplaceAll r ("\x7b\x7b " ++ kv.1 ++ " \x7d\x7d") kv.2)
        "run \x7b\x7b packageManager \x7d\x7d dev" :=
  c8_placeholder "run \x7b\x7b packageManager \x7d\x7d dev" [("packageManager", "pnpm")]
    (by decide)

theorem lexLtNat_asymm : ∀ a b : List Nat, lexLtNat a b = true → lexLtNat b a = false := by
  intro a
  induction a with
  | nil =>
    intro b h
    cases b with
    | nil => simp [lexLtNat] at h
    | cons y ys => simp [lexLtNat]
  | cons x xs ih =>
    intro b h
    cases b with
    | nil => simp [lexLtNat] at h
    | cons y ys =>
      simp only [lexLtNat] at h ⊢
      by_cases hxy : x < y
      · have h1 : ¬ y < x := by omega
        have h2 : (y == x) = false := by
          simp only [beq_eq_false_iff_ne]
          omega
        simp [h1, h2]
      · by_cases heq : (x == y) = true
        · have hxeq : x = y := beq_iff_eq.mp heq
          simp only [hxy, if_false, heq, if_true] at h
          have h1 : ¬ y < x := by omega
          have h2 : (y == x) = true := by simp [hxeq]
          simp [h1, h2, ih _ h]
        · simp [hxy, heq] at h

theorem jsStrLt_asymm (a b : String) (h : jsStrLt a b = true) : jsStrLt b a = false :=
  lexLtNat_asymm _ _ h

theorem jsStrLe_of_lt (a b : String) (h : jsStrLt a b = true) : jsStrLe a b = true := by
  simp [jsStrLe, jsStrLt_asymm a b h]

theorem jsStrLe_of_not_lt (a b : String) (h : ¬ jsStrLt b a = true) : jsStrLe a b = true := by
  simp [jsStrLe]
  exact Bool.not_eq_true _ ▸ (by simpa using h)

theorem keysSortedB_tail (k : String) (v : JValue) (o : JObj)
    (h : keysSortedB (.cons k v o) = true) : keysSortedB o = true := by
  cases o with
  | nil => rfl
  | cons k' v' rest =>
    have h' : (jsStrLe k k' && keysSortedB (JObj.cons k' v' rest)) = true := h
    exact (Bool.and_eq_true_iff.mp h').2

theorem insertByKey_sorted_aux (k : String) (v : JValue) :
    (o : JObj) → keysSortedB o = true →
      keysSortedB (insertByKey k v o) = true ∧
      (∀ a v', jsStrLe a k = true → keysSortedB (JObj.cons a v' o) = true →
        keysSortedB (JObj.cons a v' (insertByKey k v o)) = true)
  | .nil, _ => by
    refine ⟨rfl, fun a v' ha _ => ?_⟩
    show (jsStrLe a k && keysSortedB (JObj.cons k v .nil)) = true
    simp [ha, keysSortedB]
  | .cons k' v' rest, h => by
    by_cases hlt : jsStrLt k k' = true
    · have hle : jsStrLe k k' = true := jsStrLe_of_lt _ _ hlt
      have hins : insertByKey k v (JObj.cons k' v' rest) =
          JObj.cons k v (JObj.cons k' v' rest) := by
        simp [insertByKey, hlt]
      constructor
      · rw [hins]
        show (jsStrLe k k' && keysSortedB (JObj.cons k' v' rest)) = true
        simp [hle, h]
      · intro a va ha _
        rw [hins]
        show (jsStrLe a k &&
          (jsStrLe k k' && keysSortedB (JObj.cons k' v' rest))) = true
        simp [ha, hle, h]
    · have hrest := keysSortedB_tail _ _ _ h
      obtain ⟨_, ih2⟩ := insertByKey_sorted_aux k v rest hrest
      have hle' : jsStrLe k' k = true := jsStrLe_of_not_lt _ _ hlt
      have hmain : keysSortedB (JObj.cons k' v' (insertByKey k v rest)) = true :=
        ih2 k' v' hle' h
      have hins : insertByKey k v (JObj.cons k' v' rest) =
          JObj.cons k' v' (insertByKey k v rest) := by
        simp [insertByKey, hlt]
      constructor
      · rw [hins]
        exact hmain
      · intro a va _ hsa
        rw [hins]
        show (jsStrLe a k' && keysSortedB (JObj.cons k' v' (insertByKey k v rest))) = true
        have hsa' : (jsStrLe a k' && keysSortedB (JObj.cons k' v' rest)) = true := hsa
        have hak' : jsStrLe a k' = true := (Bool.and_eq_true_iff.mp hsa').1
        simp [hak', hmain]

theorem sortFieldsByKey_sorted : (o : JObj) → keysSortedB (sortFieldsByKey o) = true
  | .nil => rfl
  | .cons k v rest => (insertByKey_sorted_aux k v _ (sortFieldsByKey_sorted rest)).1

theorem sortObjectKeys_sorted (v w : JValue) (h : sortObjectKeys v = some w) :
    ∀ g, w = .obj g → keysSortedB g = true := by
  intro g hg
  cases v with
  | null => simp [sortObjectKeys] at h
  | obj fields =>
    simp only [sortObjectKeys, Option.some.injEq] at h
    rw [← h] at hg
    cases hg
    exact sortFieldsByKey_sorted _
  | arr xs =>
    simp only [sortObjectKeys, Option.some.injEq] at h
    rw [← h] at hg
    cases hg
    exact sortFieldsByKey_sorted _
  | str s =>
    simp only [sortObjectKeys, Option.some.injEq] at h
    rw [← h] at hg
    cases hg
    exact sortFieldsByKey_sorted _
  | bool b =>
    simp only [sortObjectKeys, Option.some.injEq] at h
    rw [← h] at hg
    cases hg
    rfl
  | num raw =>
    simp only [sortObjectKeys, Option.some.injEq] at h
    rw [← h] at hg
    cases hg
    rfl

theorem JObj.get_set_found : (o : JObj) → (k : String) → (v : JValue) →
    (o.set k v).get k = some v
  | .nil, k, v => by simp [JObj.set, JObj.get]
  | .cons k' v' rest, k, v => by
    by_cases hk : (k' == k) = true
    · simp [JObj.set, hk, JObj.get]
    · simp [JObj.set, hk, JObj.get, JObj.get_set_found rest k v]

theorem JObj.get_set_other : (o : JObj) → (k k' : String) → (v : JValue) →
    k' ≠ k → (o.set k v).get k' = o.get k'
  | .nil, k, k', v, h => by
    have : (k == k') = false := by simp [beq_eq_false_iff_ne]; exact fun e => h e.symm
    simp [JObj.set, JObj.get, this]
  | .cons k₀ v₀ rest, k, k', v, h => by
    by_cases hk : (k₀ == k) = true
    · have hk0 : k₀ = k := beq_iff_eq.mp hk
      have hne : (k₀ == k') = false := by
        simp only [beq_eq_false_iff_ne]
        intro e
        exact h (hk0 ▸ e).symm
      simp [JObj.set, hk, JObj.get, hne]
    · by_cases hk' : (k₀ == k') = true
      · simp [JObj.set, hk, JObj.get, hk']
      · simp [JObj.set, hk, JObj.get, hk', JObj.get_set_other rest k k' v h]

theorem sortKeyStep_obj (f : JObj) (k : String) (r : JValue)
    (h : sortKeyStep (.obj f) k = some r) :
    ∃ g, r = .obj g ∧ (∀ k', k' ≠ k → g.get k' = f.get k') ∧
      (∀ hobj, g.get k = some (.obj hobj) → keysSortedB hobj = true) := by
  cases hv : f.get k with
  | none =>
    simp only [sortKeyStep, hv, pure, Option.some.injEq] at h
    refine ⟨f, h.symm, fun _ _ => rfl, fun hobj hget => ?_⟩
    rw [hv] at hget
    cases hget
  | some v =>
    cases hw : sortObjectKeys v with
    | none => simp [sortKeyStep, hv, hw] at h
    | some w =>
      simp only [sortKeyStep, hv, hw, Option.some_bind, Option.bind_eq_bind,
        pure, Option.some.injEq] at h
      refine ⟨f.set k w, h.symm, fun k' hk' => JObj.get_set_other f k k' w hk',
        fun hobj hget => ?_⟩
      rw [JObj.get_set_found] at hget
      injection hget with hw'
      exact sortObjectKeys_sorted v w hw _ hw'

theorem sortLoop_arr (keys : List String) (xs : JArr) :
    List.foldlM sortKeyStep (JValue.arr xs) keys = some (.arr xs) := by
  induction keys with
  | nil => rfl
  | cons k rest ih =>
    rw [List.foldlM_cons]
    show (sortKeyStep (.arr xs) k).bind _ = _
    simp only [sortKeyStep, pure, Option.some_bind]
    exact ih

theorem sortLoop_props (keys : List String) (hnd : keys.Nodup) :
    ∀ (f : JObj) (r : JValue),
    List.foldlM sortKeyStep (JValue.obj f) keys = some r →
    ∃ g, r = .obj g ∧
      (∀ k', k' ∉ keys → g.get k' = f.get k') ∧
      (∀ k' ∈ keys, ∀ hobj, g.get k' = some (.obj hobj) → keysSortedB hobj = true) := by
  induction keys with
  | nil =>
    intro f r h
    simp only [List.foldlM_nil, pure, Option.some.injEq] at h
    exact ⟨f, h.symm, fun _ _ => rfl, by simp⟩
  | cons k rest ih =>
    intro f r h
    rw [List.foldlM_cons] at h
    cases hstep : sortKeyStep (.obj f) k with
    | none =>
      rw [hstep] at h
      simp at h
    | some m =>
      rw [hstep] at h
      simp only [Option.bind_eq_bind, Option.some_bind] at h
      obtain ⟨g1, hm, hpres1, hsort1⟩ := sortKeyStep_obj f k m hstep
      subst hm
      obtain ⟨g, hr, hpres, hsort⟩ := ih (List.Nodup.of_cons hnd) g1 r h
      refine ⟨g, hr, ?_, ?_⟩
      · intro k' hk'
        rw [List.mem_cons, not_or] at hk'
        rw [hpres k' hk'.2, hpres1 k' hk'.1]
      · intro k' hk' hobj hget
        rcases List.mem_cons.mp hk' with he | hm'
        · subst he
          have hknr : k' ∉ rest := (List.nodup_cons.mp hnd).1
          rw [hpres k' hknr] at hget
          exact hsort1 hobj hget
        · exact hsort k' hm' hobj hget

theorem mergeValue_name_target (t e : JValue) (fields : JObj) (tn : String)
    (hm : mergePackageJsonValue t e = some (.obj fields))
    (hread : jsReadProp t "name" = some (some (.str tn))) (hne : tn ≠ "") :
    fields.get "name" = some (.str tn) := by
  unfold mergePackageJsonValue at hm
  rw [hread] at hm
  have htr : truthyOpt (some (JValue.str tn)) = true := by
    simp [truthyOpt, jsTruthy, hne]
  simp only [Option.bind_eq_bind, Option.some_bind, htr, if_true] at hm
  cases hd : deepmergeJ t e with
  | obj f0 =>
    rw [hd] at hm
    simp only [pure, Option.some_bind] at hm
    obtain ⟨g, hr, hpres, _⟩ := sortLoop_props _ (by simp) _ _ hm
    injection hr with hfg
    rw [hfg, hpres "name" (by simp), JObj.get_set_found]
  | arr xs =>
    rw [hd] at hm
    simp only [pure, Option.some_bind, sortLoop_arr] at hm
    cases hm
  | null =>
    rw [hd] at hm
    simp at hm
  | bool b =>
    rw [hd] at hm
    simp at hm
  | num raw =>
    rw [hd] at hm
    simp at hm
  | str s =>
    rw [hd] at hm
    simp at hm

theorem mergeValue_name_extra (t e : JValue) (fields : JObj) (en : String)
    (hm : mergePackageJsonValue t e = some (.obj fields))
    (hreadT : jsReadProp t "name" = some none)
    (hreadE : jsReadProp e "name" = some (some (.str en))) :
    fields.get "name" = some (.str en) := by
  unfold mergePackageJsonValue at hm
  rw [hreadT] at hm
  have htr : truthyOpt (none : Option JValue) = false := rfl
  simp only [Option.bind_eq_bind, Option.some_bind, htr, Bool.false_eq_true,
    if_false, hreadE] at hm
  cases hd : deepmergeJ t e with
  | obj f0 =>
    rw [hd] at hm
    simp only [pure, Option.some_bind] at hm
    obtain ⟨g, hr, hpres, _⟩ := sortLoop_props _ (by simp) _ _ hm
    injection hr with hfg
    rw [hfg, hpres "name" (by simp), JObj.get_set_found]
  | arr xs =>
    rw [hd] at hm
    simp only [pure, Option.some_bind, sortLoop_arr] at hm
    cases hm
  | null =>
    rw [hd] at hm
    simp at hm
  | bool b =>
    rw [hd] at hm
    simp at hm
  | num raw =>
    rw [hd] at hm
    simp at hm
  | str s =>
    rw [hd] at hm
    simp at hm

theorem mergeValue_sorted (t e : JValue) (fields : JObj) (key : String) (g : JObj)
    (hm : mergePackageJsonValue t e = some (.obj fields))
    (hkey : key ∈ (["scripts", "dependencies", "devDependencies"] : List String))
    (hget : fields.get key = some (.obj g)) : keysSortedB g = true := by
  unfold mergePackageJsonValue at hm
  cases hreadT : jsReadProp t "name" with
  | none =>
    rw [hreadT] at hm
    simp at hm
  | some tn0 =>
    rw [hreadT] at hm
    simp only [Option.bind_eq_bind, Option.some_bind] at hm
    by_cases htr : truthyOpt tn0 = true
    · rw [if_pos htr] at hm
      simp only [pure, Option.some_bind] at hm
      cases hd : deepmergeJ t e with
      | obj f0 =>
        rw [hd] at hm
        simp only [Option.some_bind] at hm
        obtain ⟨g', hr, _, hsort⟩ := sortLoop_props _ (by simp) _ _ hm
        injection hr with hfg
        rw [hfg] at hget
        exact hsort key hkey g hget
      | arr xs =>
        rw [hd] at hm
        simp only [Option.some_bind, sortLoop_arr] at hm
        cases hm
      | null =>
        rw [hd] at hm
        simp at hm
      | bool b =>
        rw [hd] at hm
        simp at hm
      | num raw =>
        rw [hd] at hm
        simp at hm
      | str s =>
        rw [hd] at hm
        simp at hm
    · rw [if_neg htr] at hm
      cases hE : jsReadProp e "name" with
      | none =>
        rw [hE] at hm
        simp at hm
      | some nv =>
        rw [hE] at hm
        simp only [Option.some_bind] at hm
        cases hd : deepmergeJ t e with
        | obj f0 =>
          rw [hd] at hm
          simp only [pure, Option.some_bind] at hm
          obtain ⟨g', hr, _, hsort⟩ := sortLoop_props _ (by simp) _ _ hm
          injection hr with hfg
          rw [hfg] at hget
          exact hsort key hkey g hget
        | arr xs =>
          rw [hd] at hm
          simp only [pure, Option.some_bind, sortLoop_arr] at hm
          cases hm
        | null =>
          rw [hd] at hm
          simp at hm
        | bool b =>
          rw [hd] at hm
          simp at hm
        | num raw =>
          rw [hd] at hm
          simp at hm
        | str s =>
          rw [hd] at hm
          simp at hm

/-- C3: the descriptor structural merge is a silent no-op when the target
descriptor does not exist; otherwise the merged `name` is the target's
original name when that is non-empty and the extra's name when the target's
is absent; each of `scripts`, `dependencies` and `devDependencies` present
in the result has its keys in ascending sorted order; and the spec's
`{a: "1"}` / `{b: "2"}` example produces the ascending-sorted merged
descriptor end to end. -/
theorem c3_descriptor_merge :
    (∀ (dest : FSList) (extra : String), dest.get "package.json" = none →
      mergePackageJsonFS dest extra = .ok dest) ∧
    (∀ t e fields tn, mergePackageJsonValue t e = some (.obj fields) →
      jsReadProp t "name" = some (some (.str tn)) → tn ≠ "" →
      fields.get "name" = some (.str tn)) ∧
    (∀ t e fields en, mergePackageJsonValue t e = some (.obj fields) →
      jsReadProp t "name" = some none →
      jsReadProp e "name" = some (some (.str en)) →
      fields.get "name" = some (.str en)) ∧
    (∀ t e fields key g, mergePackageJsonValue t e = some (.obj fields) →
      key ∈ (["scripts", "dependencies", "devDependencies"] : List String) →
      fields.get key = some (.obj g) → keysSortedB g = true) ∧
    (mergePackageJsonFS
        (.cons "package.json" (.file "\x7b\"dependencies\":\x7b\"a\":\"1\"\x7d\x7d") .nil)
        "\x7b\"dependencies\":\x7b\"b\":\"2\"\x7d\x7d" =
      .ok (.cons "package.json"
        (.file "\x7b\n  \"dependencies\": \x7b\n    \"a\": \"1\",\n    \"b\": \"2\"\n  \x7d\n\x7d\n")
        .nil)) := by
  refine ⟨?_, mergeValue_name_target, mergeValue_name_extra, mergeValue_sorted, rfl⟩
  intro dest extra h
  unfold mergePackageJsonFS
  rw [h]

/-- Witness for C3 at the spec's example: the merged descriptor's
dependencies are sorted and the no-op case triggers on an empty
destination. -/
theorem c3_descriptor_merge_witness :
    mergePackageJsonFS .nil "\x7b\x7d" = .ok .nil ∧
    ∀ g, (match jsonParse "\x7b\"dependencies\":\x7b\"b\":\"2\"\x7d\x7d",
            jsonParse "\x7b\"dependencies\":\x7b\"a\":\"1\"\x7d\x7d" with
          | some t, some e => mergePackageJsonValue t e
          | _, _ => none) = some (.obj g) →
        ∀ d, g.get "dependencies" = some (.obj d) → keysSortedB d = true := by
  refine ⟨c3_descriptor_merge.1 .nil "\x7b\x7d" rfl, ?_⟩
  intro g hm d hd
  exact c3_descriptor_merge.2.2.2.1 _ _ g "dependencies" d hm (by simp) hd

/-- C2 counterexample: with the descriptor-merge flag set, the copy of a
directory child containing a `package.json` copies it verbatim (the actual
recursion drops the flag), while the claim-side copy that propagates all
options structurally merges it; the two destinations differ. -/
theorem c2_counterexample :
    contentAtC (destOf (copyFolder { isMergePackageJson := true } "top"
        (.cons "sub" (.dir (.cons "package.json"
          (.file "\x7b\"name\":\"e\",\"x\":\"1\"\x7d") .nil)) .nil)
        (.cons "sub" (.dir (.cons "package.json" (.file "\x7b\"name\":\"t\"\x7d") .nil)) .nil)))
      ["sub", "package.json"] = some "\x7b\n  \"name\": \"e\",\n  \"x\": \"1\"\n\x7d\n" ∧
    contentAtC (destOf (copyFolderSameOpts { isMergePackageJson := true } "top"
        (.cons "sub" (.dir (.cons "package.json"
          (.file "\x7b\"name\":\"e\",\"x\":\"1\"\x7d") .nil)) .nil)
        (.cons "sub" (.dir (.cons "package.json" (.file "\x7b\"name\":\"t\"\x7d") .nil)) .nil)))
      ["sub", "package.json"] = some "\x7b\n  \"name\": \"t\",\n  \"x\": \"1\"\n\x7d\n" ∧
    contentAtC (destOf (copyFolder { isMergePackageJson := true } "top"
        (.cons "sub" (.dir (.cons "package.json"
          (.file "\x7b\"name\":\"e\",\"x\":\"1\"\x7d") .nil)) .nil)
        (.cons "sub" (.dir (.cons "package.json" (.file "\x7b\"name\":\"t\"\x7d") .nil)) .nil)))
      ["sub", "package.json"] ≠
    contentAtC (destOf (copyFolderSameOpts { isMergePackageJson := true } "top"
        (.cons "sub" (.dir (.cons "package.json"
          (.file "\x7b\"name\":\"e\",\"x\":\"1\"\x7d") .nil)) .nil)
        (.cons "sub" (.dir (.cons "package.json" (.file "\x7b\"name\":\"t\"\x7d") .nil)) .nil)))
      ["sub", "package.json"] := by
  exact ⟨by decide, by decide, by decide⟩

/-- C2 (amended): the recursive call for a directory child receives the
parent's version, placeholder mapping and skip list, and does not receive
the descriptor-merge flag or the package name (`recursionOptions`);
consequently, copying a source whose direct children are all directories is
insensitive to those two options. -/
theorem c2_copy_recursion :
    (∀ opts, recursionOptions opts =
      { version := opts.version, packageName := none,
        templateParameters := opts.templateParameters, isMergePackageJson := false,
        skipFiles := opts.skipFiles }) ∧
    (∀ fuel opts toName name sub rest acc,
      (allSkipFiles opts).contains name = false →
      copyChildrenGo (fuel + 1) opts toName (.cons name (.dir sub) rest) acc =
        (match acc.get (renameFile name) with
         | some (.file _) => .error acc
         | existing =>
           match copyChildrenGo fuel (recursionOptions opts) (renameFile name) sub
               (match existing with
                | some (.dir ch) => ch
                | _ => .nil) with
           | .ok ch' =>
             copyChildrenGo fuel opts toName rest (acc.set (renameFile name) (.dir ch'))
           | .error ch' => .error (acc.set (renameFile name) (.dir ch')))) ∧
    (∀ fuel opts toName src acc b p,
      FSList.allDirs src = true →
      copyChildrenGo fuel
        { opts with isMergePackageJson := b, packageName := p } toName src acc =
      copyChildrenGo fuel opts toName src acc) := by
  refine ⟨fun _ => rfl, ?_, ?_⟩
  · intro fuel opts toName name sub rest acc hskip
    simp only [copyChildrenGo, hskip, Bool.false_eq_true, if_false]
  · intro fuel
    induction fuel with
    | zero => intro opts toName src acc b p _; rfl
    | succ n ih =>
      intro opts toName src acc b p hdirs
      cases src with
      | nil => rfl
      | cons name child rest =>
        have hskips : allSkipFiles { opts with isMergePackageJson := b, packageName := p }
            = allSkipFiles opts := rfl
        by_cases hsk : (allSkipFiles opts).contains name = true
        · simp only [copyChildrenGo, hskips, hsk, if_true]
          cases child with
          | dir sub => exact ih opts toName rest acc b p (by exact hdirs)
          | file c => simp [FSList.allDirs] at hdirs
        · cases child with
          | file c => simp [FSList.allDirs] at hdirs
          | dir sub =>
            have hdrest : FSList.allDirs rest = true := hdirs
            have hskf : (allSkipFiles opts).contains name = false := by
              simpa using hsk
            simp only [copyChildrenGo, hskips, hskf, Bool.false_eq_true, if_false]
            have hrec : recursionOptions
                { opts with isMergePackageJson := b, packageName := p } =
                recursionOptions opts := rfl
            rw [hrec]
            cases hacc : acc.get (renameFile name) with
            | none =>
              simp only [hacc]
              cases hinner : copyChildrenGo n (recursionOptions opts) (renameFile name)
                  sub .nil with
              | ok ch' =>
                simp only [hinner]
                exact ih opts toName rest (acc.set (renameFile name) (.dir ch')) b p hdrest
              | error ch' => simp only [hinner]
            | some t =>
              cases t with
              | file c => simp only [hacc]
              | dir ch =>
                simp only [hacc]
                cases hinner : copyChildrenGo n (recursionOptions opts) (renameFile name)
                    sub ch with
                | ok ch' =>
                  simp only [hinner]
                  exact ih opts toName rest (acc.set (renameFile name) (.dir ch')) b p hdrest
                | error ch' => simp only [hinner]

/-- Witness for C2's amended theorem: an all-directory source copied with
and without the non-propagated options. -/
theorem c2_copy_recursion_witness :
    copyChildrenGo 4
        { ({} : CopyOptions) with isMergePackageJson := true, packageName := some "p" }
        "top" (.cons "sub" (.dir (.cons "a.txt" (.file "x") .nil)) .nil) .nil =
      copyChildrenGo 4 ({} : CopyOptions) "top"
        (.cons "sub" (.dir (.cons "a.txt" (.file "x") .nil)) .nil) .nil :=
  c2_copy_recursion.2.2 4 {} "top"
    (.cons "sub" (.dir (.cons "a.txt" (.file "x") .nil)) .nil) .nil true (some "p") rfl

theorem FSList.get_set_hit : (o : FSList) → (k : String) → (v : FSTree) →
    (o.set k v).get k = some v
  | .nil, k, v => by simp [FSList.set, FSList.get]
  | .cons k' v' rest, k, v => by
    by_cases hk : (k' == k) = true
    · simp [FSList.set, hk, FSList.get]
    · simp [FSList.set, hk, FSList.get, FSList.get_set_hit rest k v]

theorem FSList.get_set_miss : (o : FSList) → (k k' : String) → (v : FSTree) →
    k' ≠ k → (o.set k v).get k' = o.get k'
  | .nil, k, k', v, h => by
    have hne : (k == k') = false := by
      simp only [beq_eq_false_iff_ne]
      exact fun e => h e.symm
    simp [FSList.set, FSList.get, hne]
  | .cons k₀ v₀ rest, k, k', v, h => by
    by_cases hk : (k₀ == k) = true
    · have hk0 : k₀ = k := beq_iff_eq.mp hk
      have hne : (k₀ == k') = false := by
        simp only [beq_eq_false_iff_ne]
        intro e
        exact h (hk0 ▸ e).symm
      simp [FSList.set, hk, FSList.get, hne]
    · by_cases hk' : (k₀ == k') = true
      · simp [FSList.set, hk, FSList.get, hk']
      · simp [FSList.set, hk, FSList.get, hk', FSList.get_set_miss rest k k' v h]

theorem lookupPathC_set_ne (acc : FSList) (dn : String) (t : FSTree)
    (p₁ : String) (prest : List String) (h : p₁ ≠ dn) :
    lookupPathC (acc.set dn t) (p₁ :: prest) = lookupPathC acc (p₁ :: prest) := by
  cases prest with
  | nil => simp [lookupPathC, FSList.get_set_miss acc dn p₁ t h]
  | cons q qrest => simp [lookupPathC, FSList.get_set_miss acc dn p₁ t h]

theorem lookupPathC_cons_nondir (ch : FSList) (n : String) (rest : List String)
    (hrest : rest ≠ []) (h : ∀ d, ch.get n ≠ some (.dir d)) :
    lookupPathC ch (n :: rest) = none := by
  cases rest with
  | nil => exact absurd rfl hrest
  | cons q qrest =>
    show (match ch.get n with
      | some (.dir ch') => lookupPathC ch' (q :: qrest)
      | _ => none) = none
    cases hg : ch.get n with
    | none => rfl
    | some t =>
      cases t with
      | file c => rfl
      | dir d => exact absurd hg (h d)

theorem lookupPathC_cons_dir (ch : FSList) (n : String) (d : FSList)
    (q : String) (qrest : List String) (hg : ch.get n = some (.dir d)) :
    lookupPathC ch (n :: q :: qrest) = lookupPathC d (q :: qrest) := by
  show (match ch.get n with
    | some (.dir ch') => lookupPathC ch' (q :: qrest)
    | _ => none) = _
  rw [hg]

theorem lookupPathC_nil (p : List String) : lookupPathC .nil p = none := by
  cases p with
  | nil => rfl
  | cons q qrest => cases qrest <;> rfl

theorem mergePackageJsonFS_error (dest : FSList) (c : String) (d : FSList)
    (h : mergePackageJsonFS dest c = .error d) : d = dest := by
  unfold mergePackageJsonFS at h
  split at h
  · cases h
  · injection h with h'
    exact h'.symm
  · split at h
    · split at h
      · cases h
      · injection h with h'
        exact h'.symm
    · injection h with h'
      exact h'.symm

theorem mergePackageJsonFS_ok (dest : FSList) (c : String) (d : FSList)
    (h : mergePackageJsonFS dest c = .ok d) :
    (dest.get "package.json" = none ∧ d = dest) ∨
    (∃ t w, dest.get "package.json" = some (.file t) ∧
      d = dest.set "package.json" (.file w)) := by
  unfold mergePackageJsonFS at h
  split at h
  · next hg =>
    injection h with h'
    exact Or.inl ⟨hg, h'.symm⟩
  · cases h
  · next target hg =>
    split at h
    · next tj ej hp1 hp2 =>
      split at h
      · next m hm =>
        injection h with h'
        exact Or.inr ⟨target, jsonStringify2 m ++ "\n", hg, h'.symm⟩
      · cases h
    · cases h

theorem copyChildrenGo_skip_paths (fuel : Nat) :
    ∀ (opts : CopyOptions) (toName : String) (src acc : FSList) (p : List String),
    (∃ c ∈ p, c ∈ allSkipFiles opts ∧ c ≠ ".gitignore") →
    lookupPathC (destOf (copyChildrenGo fuel opts toName src acc)) p =
      lookupPathC acc p := by
  induction fuel with
  | zero => intro opts toName src acc p _; rfl
  | succ n ih =>
    intro opts toName src acc p hp
    cases src with
    | nil => rfl
    | cons name child rest =>
      by_cases hsk : (allSkipFiles opts).contains name = true
      · simp only [copyChildrenGo, hsk, if_true]
        exact ih opts toName rest acc p hp
      · obtain ⟨c, hcp, hcskip, hcgit⟩ := hp
        cases p with
        | nil => cases hcp
        | cons p₁ prest =>
        have hskf : (allSkipFiles opts).contains name = false := by simpa using hsk
        have hname : name ∉ allSkipFiles opts := by
          intro hmem
          have hskf' : List.elem name (allSkipFiles opts) = false := hskf
          rw [List.elem_eq_true_of_mem hmem] at hskf'
          cases hskf'
        have hdnne : ∀ c', c' ∈ allSkipFiles opts → c' ≠ ".gitignore" →
            c' ≠ renameFile name := by
          intro c' hc' hcg' he
          unfold renameFile at he
          by_cases hg : (name == "gitignore") = true
          · rw [if_pos hg] at he
            exact hcg' he
          · rw [if_neg hg] at he
            exact hname (he ▸ hc')
        have hcrest_of : p₁ = renameFile name → c ∈ prest := by
          intro hp1
          rcases List.mem_cons.mp hcp with he | hr
          · exact absurd (he.trans hp1) (hdnne c hcskip hcgit)
          · exact hr
        -- invariant of a file write at the rename target
        have hkeep : ∀ (key : String) (a : FSList) (w : String),
            key = renameFile name →
            (∀ d, a.get key ≠ some (.dir d)) →
            lookupPathC (a.set key (.file w)) (p₁ :: prest) =
              lookupPathC a (p₁ :: prest) := by
          intro key a w hkey hnd
          subst hkey
          by_cases hp1 : p₁ = renameFile name
          · have hcrest : c ∈ prest := hcrest_of hp1
            have hprest : prest ≠ [] := by
              intro e
              subst e
              cases hcrest
            subst hp1
            rw [lookupPathC_cons_nondir _ _ _ hprest
                (fun d => by
                  rw [FSList.get_set_hit]
                  intro he
                  cases he),
              lookupPathC_cons_nondir _ _ _ hprest hnd]
          · exact lookupPathC_set_ne a _ _ _ _ hp1
        -- invariant of a directory write at the rename target
        have hkeepd : ∀ (a : FSList) (ch' : FSList),
            (p₁ = renameFile name → prest ≠ [] →
              lookupPathC ch' prest = lookupPathC a (p₁ :: prest)) →
            lookupPathC (a.set (renameFile name) (.dir ch')) (p₁ :: prest) =
              lookupPathC a (p₁ :: prest) := by
          intro a ch' hch
          by_cases hp1 : p₁ = renameFile name
          · have hcrest : c ∈ prest := hcrest_of hp1
            have hprest : prest ≠ [] := by
              intro e
              subst e
              cases hcrest
            cases prest with
            | nil => exact absurd rfl hprest
            | cons q qrest =>
              rw [hp1, lookupPathC_cons_dir _ _ ch' q qrest (FSList.get_set_hit _ _ _)]
              rw [← hp1]
              exact hch hp1 hprest
          · exact lookupPathC_set_ne a _ _ _ _ hp1
        have hskiprec : allSkipFiles (recursionOptions opts) = allSkipFiles opts := rfl
        cases child with
        | dir sub =>
          simp only [copyChildrenGo, hskf, Bool.false_eq_true, if_false]
          cases hacc : acc.get (renameFile name) with
          | none =>
            simp only [hacc]
            cases hinner : copyChildrenGo n (recursionOptions opts) (renameFile name)
                sub .nil with
            | ok ch' =>
              simp only [hinner]
              rw [ih opts toName rest (acc.set (renameFile name) (.dir ch'))
                (p₁ :: prest) ⟨c, hcp, hcskip, hcgit⟩]
              refine hkeepd acc ch' ?_
              intro hp1 hprest
              have hin := ih (recursionOptions opts) (renameFile name) sub .nil prest
                ⟨c, hcrest_of hp1, hskiprec ▸ hcskip, hcgit⟩
              rw [hinner] at hin
              simp only [destOf] at hin
              rw [hin, lookupPathC_nil]
              cases prest with
              | nil => exact absurd rfl hprest
              | cons q qrest =>
                rw [lookupPathC_cons_nondir acc p₁ (q :: qrest)
                  (List.cons_ne_nil q qrest)
                  (fun d => by rw [hp1, hacc]; intro he; cases he)]
            | error ch' =>
              simp only [hinner, destOf]
              refine hkeepd acc ch' ?_
              intro hp1 hprest
              have hin := ih (recursionOptions opts) (renameFile name) sub .nil prest
                ⟨c, hcrest_of hp1, hskiprec ▸ hcskip, hcgit⟩
              rw [hinner] at hin
              simp only [destOf] at hin
              rw [hin, lookupPathC_nil]
              cases prest with
              | nil => exact absurd rfl hprest
              | cons q qrest =>
                rw [lookupPathC_cons_nondir acc p₁ (q :: qrest)
                  (List.cons_ne_nil q qrest)
                  (fun d => by rw [hp1, hacc]; intro he; cases he)]
          | some t =>
            cases t with
            | file fc =>
              simp only [hacc, destOf]
            | dir ch =>
              simp only [hacc]
              cases hinner : copyChildrenGo n (recursionOptions opts) (renameFile name)
                  sub ch with
              | ok ch' =>
                simp only [hinner]
                rw [ih opts toName rest (acc.set (renameFile name) (.dir ch'))
                  (p₁ :: prest) ⟨c, hcp, hcskip, hcgit⟩]
                refine hkeepd acc ch' ?_
                intro hp1 hprest
                have hin := ih (recursionOptions opts) (renameFile name) sub ch prest
                  ⟨c, hcrest_of hp1, hskiprec ▸ hcskip, hcgit⟩
                rw [hinner] at hin
                simp only [destOf] at hin
                rw [hin]
                cases prest with
                | nil => exact absurd rfl hprest
                | cons q qrest =>
                  rw [lookupPathC_cons_dir acc p₁ ch q qrest
                    (by rw [hp1]; exact hacc)]
              | error ch' =>
                simp only [hinner, destOf]
                refine hkeepd acc ch' ?_
                intro hp1 hprest
                have hin := ih (recursionOptions opts) (renameFile name) sub ch prest
                  ⟨c, hcrest_of hp1, hskiprec ▸ hcskip, hcgit⟩
                rw [hinner] at hin
                simp only [destOf] at hin
                rw [hin]
                cases prest with
                | nil => exact absurd rfl hprest
                | cons q qrest =>
                  rw [lookupPathC_cons_dir acc p₁ ch q qrest
                    (by rw [hp1]; exact hacc)]
        | file content =>
          simp only [copyChildrenGo, hskf, Bool.false_eq_true, if_false]
          by_cases hpj : (name == "package.json") = true
          · have hrnp : ("package.json" : String) = renameFile name := by
              have hne : name = "package.json" := beq_iff_eq.mp hpj
              rw [hne]
              decide
            simp only [hpj, if_true]
            by_cases hmg : (opts.isMergePackageJson && FSList.hasKey acc "package.json")
                = true
            · simp only [hmg, if_true]
              cases hm : mergePackageJsonFS acc content with
              | error acc' =>
                simp only [hm, destOf]
                rw [mergePackageJsonFS_error acc content acc' hm]
              | ok acc' =>
                have hch := mergePackageJsonFS_ok acc content acc' hm
                simp only [hm]
                cases hg : acc'.get "package.json" with
                | none =>
                  simp only [hg, destOf]
                  rcases hch with ⟨_, he⟩ | ⟨t, w, hgt, he⟩
                  · rw [he]
                  · rw [he]
                    exact hkeep "package.json" acc w hrnp
                      (fun d hd => by rw [hgt] at hd; cases hd)
                | some u =>
                  cases u with
                  | dir du =>
                    simp only [hg, destOf]
                    rcases hch with ⟨_, he⟩ | ⟨t, w, hgt, he⟩
                    · rw [he]
                    · rw [he]
                      exact hkeep "package.json" acc w hrnp
                        (fun d hd => by rw [hgt] at hd; cases hd)
                  | file written =>
                    simp only [hg]
                    cases hu : updatePackageJsonContent written opts.version
                        opts.packageName toName with
                    | some updated =>
                      simp only [hu]
                      rw [ih opts toName rest (acc'.set "package.json" (.file updated))
                        (p₁ :: prest) ⟨c, hcp, hcskip, hcgit⟩]
                      rcases hch with ⟨hga, he⟩ | ⟨t, w, hgt, he⟩
                      · subst he
                        exact hkeep "package.json" acc' updated hrnp
                          (fun d hd => by rw [hg] at hd; cases hd)
                      · subst he
                        rw [hkeep "package.json" (acc.set "package.json" (.file w))
                            updated hrnp
                            (fun d hd => by rw [FSList.get_set_hit] at hd; cases hd),
                          hkeep "package.json" acc w hrnp
                            (fun d hd => by rw [hgt] at hd; cases hd)]
                    | none =>
                      simp only [hu, destOf]
                      rcases hch with ⟨hga, he⟩ | ⟨t, w, hgt, he⟩
                      · rw [he]
                      · rw [he]
                        exact hkeep "package.json" acc w hrnp
                          (fun d hd => by rw [hgt] at hd; cases hd)
            · have hmgf : (opts.isMergePackageJson && FSList.hasKey acc "package.json")
                  = false := by simpa using hmg
              simp only [hmgf, Bool.false_eq_true, if_false]
              cases hacc2 : acc.get (renameFile name) with
              | none =>
                simp only [hacc2]
                cases hu : updatePackageJsonContent content opts.version
                    opts.packageName toName with
                | some updated =>
                  simp only [hu]
                  rw [ih opts toName rest
                    ((acc.set (renameFile name) (.file content)).set (renameFile name)
                      (.file updated)) (p₁ :: prest) ⟨c, hcp, hcskip, hcgit⟩]
                  rw [hkeep (renameFile name) (acc.set (renameFile name) (.file content))
                      updated rfl
                      (fun d hd => by rw [FSList.get_set_hit] at hd; cases hd),
                    hkeep (renameFile name) acc content rfl
                      (fun d hd => by rw [hacc2] at hd; cases hd)]
                | none =>
                  simp only [hu, destOf]
                  exact hkeep (renameFile name) acc content rfl
                    (fun d hd => by rw [hacc2] at hd; cases hd)
              | some u =>
                cases u with
                | dir du => simp only [hacc2, destOf]
                | file fc =>
                  simp only [hacc2]
                  cases hu : updatePackageJsonContent content opts.version
                      opts.packageName toName with
                  | some updated =>
                    simp only [hu]
                    rw [ih opts toName rest
                      ((acc.set (renameFile name) (.file content)).set (renameFile name)
                        (.file updated)) (p₁ :: prest) ⟨c, hcp, hcskip, hcgit⟩]
                    rw [hkeep (renameFile name)
                        (acc.set (renameFile name) (.file content)) updated rfl
                        (fun d hd => by rw [FSList.get_set_hit] at hd; cases hd),
                      hkeep (renameFile name) acc content rfl
                        (fun d hd => by rw [hacc2] at hd; cases hd)]
                  | none =>
                    simp only [hu, destOf]
                    exact hkeep (renameFile name) acc content rfl
                      (fun d hd => by rw [hacc2] at hd; cases hd)
          · have hpjf : (name == "package.json") = false := by simpa using hpj
            simp only [hpjf, Bool.false_eq_true, if_false]
            cases hacc2 : acc.get (renameFile name) with
            | none =>
              simp only [hacc2]
              rw [ih opts toName rest
                (acc.set (renameFile name)
                  (.file (match opts.templateParameters with
                    | some params =>
                      if isMarkdown (renameFile name) then
                        replacePlaceholder content params
                      else content
                    | none => content))) (p₁ :: prest) ⟨c, hcp, hcskip, hcgit⟩]
              exact hkeep (renameFile name) acc _ rfl
                (fun d hd => by rw [hacc2] at hd; cases hd)
            | some u =>
              cases u with
              | dir du => simp only [hacc2, destOf]
              | file fc =>
                simp only [hacc2]
                rw [ih opts toName rest
                  (acc.set (renameFile name)
                    (.file (match opts.templateParameters with
                      | some params =>
                        if isMarkdown (renameFile name) then
                          replacePlaceholder content params
                        else content
                      | none => content))) (p₁ :: prest) ⟨c, hcp, hcskip, hcgit⟩]
                exact hkeep (renameFile name) acc _ rfl
                  (fun d hd => by rw [hacc2] at hd; cases hd)

/-- **C6 counterexample.** The skip check tests the SOURCE child name before
the `renameFiles` mapping is applied: a template child named `gitignore` is
not matched by a caller-supplied skip entry `.gitignore`, yet its content
reaches the destination under the skipped name `.gitignore`. So a file under
a skipped name can reach the destination, contradicting the claim as stated. -/
theorem c6_counterexample :
    ".gitignore" ∈ allSkipFiles { skipFiles := [".gitignore"] } ∧
    contentAtC .nil [".gitignore"] = none ∧
    contentAtC (destOf (copyFolder { skipFiles := [".gitignore"] } "top"
      (.cons "gitignore" (.file "x") .nil) .nil)) [".gitignore"] = some "x" := by
  refine ⟨?_, rfl, ?_⟩ <;> decide

/-- **C6 (amended).** Skip-list exclusion for every name except the rename
corner: on every overlay copy, any destination path containing a component
that is in the effective skip set (`node_modules`, `dist`, and the
caller-supplied `skipFiles`) and is not `.gitignore` is left exactly as it
was in the destination before the copy — the composer neither copies such a
child nor descends into it, at any recursion depth. (`.gitignore` must be
excepted because a source child named `gitignore` is skip-checked under that
source name and only then renamed, as the counterexample shows.) -/
theorem c6_skip_exclusion (opts : CopyOptions) (toName : String)
    (src dst : FSList) (p : List String)
    (hp : ∃ c ∈ p, c ∈ allSkipFiles opts ∧ c ≠ ".gitignore") :
    lookupPathC (destOf (copyFolder opts toName src dst)) p = lookupPathC dst p :=
  copyChildrenGo_skip_paths (fsListFuel src) opts toName src dst p hp

/-- Witness for C6's amended theorem: a `node_modules` directory with a file
inside it is not copied, and the destination stays empty at that path. -/
theorem c6_skip_exclusion_witness :
    lookupPathC (destOf (copyFolder ({} : CopyOptions) "top"
      (.cons "node_modules" (.dir (.cons "a.txt" (.file "x") .nil))
        (.cons "b.txt" (.file "y") .nil)) .nil)) ["node_modules", "a.txt"] = none :=
  (c6_skip_exclusion {} "top"
    (.cons "node_modules" (.dir (.cons "a.txt" (.file "x") .nil))
      (.cons "b.txt" (.file "y") .nil)) .nil ["node_modules", "a.txt"]
    ⟨"node_modules", by decide, by decide, by decide⟩).trans rfl

theorem dropWhile_head_false {α : Type} (p : α → Bool) :
    (l : List α) → ∀ x xs, l.dropWhile p = x :: xs → p x = false
  | [], x, xs, h => by cases h
  | c :: cs, x, xs, h => by
    by_cases hc : p c = true
    · rw [List.dropWhile_cons, if_pos hc] at h
      exact dropWhile_head_false p cs x xs h
    · rw [List.dropWhile_cons, if_neg hc] at h
      injection h with h1 _
      rw [← h1]
      simpa using hc

theorem dropWhile_suffix_exists {α : Type} (p : α → Bool) :
    (l : List α) → ∃ s, s ++ l.dropWhile p = l
  | [] => ⟨[], rfl⟩
  | c :: cs => by
    by_cases hc : p c = true
    · obtain ⟨s, hs⟩ := dropWhile_suffix_exists p cs
      exact ⟨c :: s, by rw [List.dropWhile_cons, if_pos hc, List.cons_append, hs]⟩
    · exact ⟨[], by rw [List.dropWhile_cons, if_neg hc]; rfl⟩

theorem jsTrimL_dropWhile (cs : List Char) :
    (jsTrimL cs).dropWhile isJsWS = jsTrimL cs := by
  unfold jsTrimL
  obtain ⟨s, hs⟩ := dropWhile_suffix_exists isJsWS (cs.dropWhile isJsWS).reverse
  have hs' : ((cs.dropWhile isJsWS).reverse.dropWhile isJsWS).reverse ++ s.reverse
      = cs.dropWhile isJsWS := by
    have h2 := congrArg List.reverse hs
    rwa [List.reverse_append, List.reverse_reverse] at h2
  cases hrev : ((cs.dropWhile isJsWS).reverse.dropWhile isJsWS).reverse with
  | nil => rfl
  | cons x xs =>
    rw [hrev] at hs'
    have hx : isJsWS x = false :=
      dropWhile_head_false isJsWS cs x (xs ++ s.reverse) (by rw [← hs']; rfl)
    rw [List.dropWhile_cons, if_neg (by simp [hx])]

theorem jsTrimL_idem (cs : List Char) : jsTrimL (jsTrimL cs) = jsTrimL cs := by
  have h1 : jsTrimL (jsTrimL cs)
      = (((jsTrimL cs).dropWhile isJsWS).reverse.dropWhile isJsWS).reverse := rfl
  rw [h1, jsTrimL_dropWhile]
  unfold jsTrimL
  rw [List.reverse_reverse, dropWhile_idem]

theorem jsTrim_idem (s : String) : jsTrim (jsTrim s) = jsTrim s :=
  congrArg String.mk (jsTrimL_idem s.data)

theorem mem_assocSet {α : Type} (kv : String × α) :
    (m : List (String × α)) → (k : String) → (v : α) →
    kv ∈ assocSet m k v → kv ∈ m ∨ kv = (k, v)
  | [], k, v, h => Or.inr (List.mem_singleton.mp h)
  | (k', v') :: rest, k, v, h => by
    simp only [assocSet] at h
    by_cases hk : (k' == k) = true
    · rw [if_pos hk] at h
      rcases List.mem_cons.mp h with he | hr
      · exact Or.inr (by rw [he, beq_iff_eq.mp hk])
      · exact Or.inl (List.mem_cons.mpr (Or.inr hr))
    · rw [if_neg hk] at h
      rcases List.mem_cons.mp h with he | hr
      · exact Or.inl (List.mem_cons.mpr (Or.inl he))
      · rcases mem_assocSet kv rest k v hr with h1 | h2
        · exact Or.inl (List.mem_cons.mpr (Or.inr h1))
        · exact Or.inr h2

theorem headingMatch_level (line : String) (lvl : Nat) (t : String)
    (hm : headingMatch line = some (lvl, t)) : lvl = 1 ∨ lvl = 2 := by
  unfold headingMatch at hm
  simp only [] at hm
  split at hm
  · next hg =>
    have hg' : (line.data.takeWhile (· == '#')).length = 1 ∨
        (line.data.takeWhile (· == '#')).length = 2 := by
      rcases Bool.or_eq_true_iff.mp hg with h1 | h2
      · exact Or.inl (beq_iff_eq.mp h1)
      · exact Or.inr (beq_iff_eq.mp h2)
    split at hm
    · cases hm
    · split at hm
      · split at hm
        · cases hm
        · injection hm with hp
          injection hp with hl ht
          rw [← hl]
          exact hg'
      · split at hm
        · injection hm with hp
          injection hp with hl ht
          rw [← hl]
          exact hg'
        · cases hm
  · cases hm

theorem parseAgentsLoop_good (lines : List String) :
    ∀ (sections : List (String × SectionData)) (ck ct : String) (cl : Nat)
      (cc : List String),
    (∀ kv ∈ sections, (kv.2.level = 1 ∨ kv.2.level = 2) ∧
      kv.1 = toString kv.2.level ++ "-" ++ jsToLower kv.2.title ∧
      jsTrim kv.2.content = kv.2.content) →
    ((ck != "") = true → (cl = 1 ∨ cl = 2) ∧ ck = toString cl ++ "-" ++ jsToLower ct) →
    ∀ kv ∈ parseAgentsLoop lines sections ck ct cl cc,
      (kv.2.level = 1 ∨ kv.2.level = 2) ∧
      kv.1 = toString kv.2.level ++ "-" ++ jsToLower kv.2.title ∧
      jsTrim kv.2.content = kv.2.content := by
  induction lines with
  | nil =>
    intro sections ck ct cl cc hs hck kv hkv
    simp only [parseAgentsLoop] at hkv
    by_cases hk : (ck != "") = true
    · rw [if_pos hk] at hkv
      rcases mem_assocSet kv sections ck _ hkv with h1 | h2
      · exact hs kv h1
      · obtain ⟨hlv, hkey⟩ := hck hk
        rw [h2]
        exact ⟨hlv, hkey, jsTrim_idem _⟩
    · rw [if_neg hk] at hkv
      exact hs kv hkv
  | cons line rest ih =>
    intro sections ck ct cl cc hs hck kv hkv
    simp only [parseAgentsLoop] at hkv
    cases hhm : headingMatch line with
    | some p =>
      obtain ⟨lvl, rawTitle⟩ := p
      simp only [hhm] at hkv
      refine ih _ _ _ _ _ ?_ ?_ kv hkv
      · by_cases hk : (ck != "") = true
        · rw [if_pos hk]
          intro kv' hkv'
          rcases mem_assocSet kv' sections ck _ hkv' with h1 | h2
          · exact hs kv' h1
          · obtain ⟨hlv, hkey⟩ := hck hk
            rw [h2]
            exact ⟨hlv, hkey, jsTrim_idem _⟩
        · rw [if_neg hk]
          exact hs
      · intro _
        exact ⟨headingMatch_level line lvl rawTitle hhm, rfl⟩
    | none =>
      simp only [hhm] at hkv
      by_cases hk : (ck != "") = true
      · rw [if_pos hk] at hkv
        exact ih _ _ _ _ _ hs hck kv hkv
      · rw [if_neg hk] at hkv
        exact ih _ _ _ _ _ hs hck kv hkv

theorem parseAgentsLoop_eq_flush (lines : List String) :
    ∀ (sections : List (String × SectionData)) (ck ct : String) (cl : Nat)
      (cc : List String),
    parseAgentsLoop lines sections ck ct cl cc =
      (flushedSectionsLoop lines ck ct cl cc).foldl
        (fun m kv => assocSet m kv.1 kv.2) sections := by
  induction lines with
  | nil =>
    intro sections ck ct cl cc
    simp only [parseAgentsLoop, flushedSectionsLoop]
    by_cases hk : (ck != "") = true
    · rw [if_pos hk, if_pos hk]
      rfl
    · rw [if_neg hk, if_neg hk]
      rfl
  | cons line rest ih =>
    intro sections ck ct cl cc
    simp only [parseAgentsLoop, flushedSectionsLoop]
    cases hhm : headingMatch line with
    | some p =>
      obtain ⟨lvl, rawTitle⟩ := p
      simp only [hhm]
      rw [List.foldl_append]
      by_cases hk : (ck != "") = true
      · rw [if_pos hk, if_pos hk]
        exact ih _ _ _ _ _
      · rw [if_neg hk, if_neg hk]
        exact ih _ _ _ _ _
    | none =>
      simp only [hhm]
      by_cases hk : (ck != "") = true
      · rw [if_pos hk, if_pos hk]
        exact ih _ _ _ _ _
      · rw [if_neg hk, if_neg hk]
        exact ih _ _ _ _ _

/-- **C5.** Fragment parsing: every parsed entry has depth 1 or 2, is stored
under the composite key `depth-lowercased(title)` with a trimmed body
(`jsTrim` is the identity on it); the parse result is exactly the ordered
flush events folded through JS-object assignment, so a composite key flushed
twice within one fragment keeps the later body (`assocSet` overwrites in
place); only depth-1/2 heading lines open sections (`headingMatch` never
returns another depth), and a depth-3 heading marker is folded verbatim into
the current body, as the two concrete parses show. -/
theorem c5_fragment_parse :
    (∀ content kv, kv ∈ parseAgentsContent content →
      (kv.2.level = 1 ∨ kv.2.level = 2) ∧
      kv.1 = toString kv.2.level ++ "-" ++ jsToLower kv.2.title ∧
      jsTrim kv.2.content = kv.2.content) ∧
    (∀ content, parseAgentsContent content =
      (flushedSections content).foldl (fun m kv => assocSet m kv.1 kv.2) []) ∧
    (∀ line lvl t, headingMatch line = some (lvl, t) → lvl = 1 ∨ lvl = 2) ∧
    parseAgentsContent "# A\nx\n### deep\nd" =
      [("1-a", ⟨"A", 1, "x\n### deep\nd"⟩)] ∧
    parseAgentsContent "# A\nx\n# A\ny" = [("1-a", ⟨"A", 1, "y"⟩)] := by
  refine ⟨?_, ?_, headingMatch_level, by decide, by decide⟩
  · intro content kv hkv
    exact parseAgentsLoop_good (jsSplitChar '\n' content) [] "" "" 0 []
      (fun kv' h => absurd h (List.not_mem_nil kv'))
      (fun h => absurd h (by decide)) kv hkv
  · intro content
    exact parseAgentsLoop_eq_flush (jsSplitChar '\n' content) [] "" "" 0 []

/-- Witness for C5: the parse of a one-section fragment, with the
entry-shape facts instantiated on its entry. -/
theorem c5_fragment_parse_witness :
    (((1 : Nat) = 1 ∨ (1 : Nat) = 2) ∧
      "1-a" = toString (1 : Nat) ++ "-" ++ jsToLower "A" ∧ jsTrim "x" = "x") :=
  c5_fragment_parse.1 "# A\nx" ("1-a", ⟨"A", 1, "x"⟩) (by decide)

theorem assocGet_cons {α : Type} (k' : String) (v : α) (m : List (String × α))
    (k : String) :
    assocGet ((k', v) :: m) k = if (k' == k) = true then some v else assocGet m k := by
  by_cases h : (k' == k) = true
  · rw [if_pos h]
    unfold assocGet
    rw [List.find?_cons_of_pos _ (by exact h)]
    rfl
  · rw [if_neg h]
    unfold assocGet
    rw [List.find?_cons_of_neg _ (by simpa using h)]

theorem assocGet_none_of_not_has {α : Type} :
    (m : List (String × α)) → (k : String) → assocHas m k = false →
    assocGet m k = none
  | [], _, _ => rfl
  | (k₀, v₀) :: rest, k, h => by
    rw [show assocHas ((k₀, v₀) :: rest) k = ((k₀ == k) || assocHas rest k) from rfl]
      at h
    rcases Bool.or_eq_false_iff.mp h with ⟨h1, h2⟩
    rw [assocGet_cons, if_neg (by simp [h1])]
    exact assocGet_none_of_not_has rest k h2

theorem assocGet_some_of_has {α : Type} :
    (m : List (String × α)) → (k : String) → assocHas m k = true →
    ∃ v, assocGet m k = some v
  | [], k, h => by cases h
  | (k₀, v₀) :: rest, k, h => by
    by_cases h0 : (k₀ == k) = true
    · exact ⟨v₀, by rw [assocGet_cons, if_pos h0]⟩
    · have h2 : assocHas rest k = true := by
        rw [show assocHas ((k₀, v₀) :: rest) k = ((k₀ == k) || assocHas rest k)
          from rfl] at h
        rcases Bool.or_eq_true_iff.mp h with h1 | h1
        · exact absurd h1 h0
        · exact h1
      obtain ⟨v, hv⟩ := assocGet_some_of_has rest k h2
      exact ⟨v, by rw [assocGet_cons, if_neg h0]; exact hv⟩

theorem assocGet_append_right {α : Type} :
    (m₁ : List (String × α)) → (m₂ : List (String × α)) → (k : String) →
    assocGet m₁ k = none → assocGet (m₁ ++ m₂) k = assocGet m₂ k
  | [], m₂, k, _ => rfl
  | (k₀, v₀) :: rest, m₂, k, h => by
    rw [assocGet_cons] at h
    by_cases h0 : (k₀ == k) = true
    · rw [if_pos h0] at h
      cases h
    · rw [if_neg h0] at h
      rw [List.cons_append, assocGet_cons, if_neg h0]
      exact assocGet_append_right rest m₂ k h

theorem assocGet_append_left {α : Type} :
    (m₁ : List (String × α)) → (m₂ : List (String × α)) → (k : String) →
    (v : α) → assocGet m₁ k = some v → assocGet (m₁ ++ m₂) k = some v
  | [], m₂, k, v, h => by cases h
  | (k₀, v₀) :: rest, m₂, k, v, h => by
    rw [assocGet_cons] at h
    by_cases h0 : (k₀ == k) = true
    · rw [if_pos h0] at h
      rw [List.cons_append, assocGet_cons, if_pos h0]
      exact h
    · rw [if_neg h0] at h
      rw [List.cons_append, assocGet_cons, if_neg h0]
      exact assocGet_append_left rest m₂ k v h

theorem assocGet_append_single_ne {α : Type} (m : List (String × α))
    (k₁ : String) (v : α) (k : String) (h : k ≠ k₁) :
    assocGet (m ++ [(k₁, v)]) k = assocGet m k := by
  cases hg : assocGet m k with
  | some v' => exact assocGet_append_left m [(k₁, v)] k v' hg
  | none =>
    rw [assocGet_append_right m [(k₁, v)] k hg, assocGet_cons,
      if_neg (by simp [beq_eq_false_iff_ne.mpr (fun e => h e.symm)])]
    rfl

theorem contentsAt_eq (m : List (String × MergedSection)) (k : String) :
    contentsAt m k = ((assocGet m k).getD ⟨"", 0, []⟩).contents := rfl

theorem contentsAt_def (m : List (String × MergedSection)) (k : String) :
    (assocGetD m k ⟨"", 0, []⟩).contents = contentsAt m k := rfl

theorem keys_pushContent :
    (acc : List (String × MergedSection)) → (k : String) → (c : String) →
    (pushContent acc k c).map Prod.fst = acc.map Prod.fst
  | [], _, _ => rfl
  | (k', ms') :: rest, k, c => by
    by_cases h : (k' == k) = true
    · show ((if (k' == k) = true
          then (k', ⟨ms'.title, ms'.level, ms'.contents ++ [c]⟩) else (k', ms')) ::
          pushContent rest k c).map Prod.fst = _
      rw [if_pos h, List.map_cons, List.map_cons, keys_pushContent rest k c]
    · show ((if (k' == k) = true
          then (k', ⟨ms'.title, ms'.level, ms'.contents ++ [c]⟩) else (k', ms')) ::
          pushContent rest k c).map Prod.fst = _
      rw [if_neg h, List.map_cons, List.map_cons, keys_pushContent rest k c]

theorem assocGet_pushContent_self :
    (acc : List (String × MergedSection)) → (k : String) → (c : String) →
    assocGet (pushContent acc k c) k =
      (assocGet acc k).map (fun ms => ⟨ms.title, ms.level, ms.contents ++ [c]⟩)
  | [], _, _ => rfl
  | (k', ms') :: rest, k, c => by
    show assocGet ((if (k' == k) = true
        then (k', ⟨ms'.title, ms'.level, ms'.contents ++ [c]⟩) else (k', ms')) ::
        pushContent rest k c) k = _
    by_cases h : (k' == k) = true
    · rw [if_pos h, assocGet_cons, if_pos h, assocGet_cons, if_pos h]
      rfl
    · rw [if_neg h, assocGet_cons, if_neg h, assocGet_cons, if_neg h]
      exact assocGet_pushContent_self rest k c

theorem assocGet_pushContent_ne :
    (acc : List (String × MergedSection)) → (k : String) → (c : String) →
    (k₂ : String) → k₂ ≠ k →
    assocGet (pushContent acc k c) k₂ = assocGet acc k₂
  | [], _, _, _, _ => rfl
  | (k', ms') :: rest, k, c, k₂, hne => by
    show assocGet ((if (k' == k) = true
        then (k', ⟨ms'.title, ms'.level, ms'.contents ++ [c]⟩) else (k', ms')) ::
        pushContent rest k c) k₂ = _
    by_cases h : (k' == k) = true
    · have h2 : (k' == k₂) = false := by
        refine beq_eq_false_iff_ne.mpr (fun e => ?_)
        exact hne ((e.symm.trans (beq_iff_eq.mp h)))
      rw [if_pos h, assocGet_cons, if_neg (by simp [h2]), assocGet_cons,
        if_neg (by simp [h2])]
      exact assocGet_pushContent_ne rest k c k₂ hne
    · by_cases h2 : (k' == k₂) = true
      · rw [if_neg h, assocGet_cons, if_pos h2, assocGet_cons, if_pos h2]
      · rw [if_neg h, assocGet_cons, if_neg h2, assocGet_cons, if_neg h2]
        exact assocGet_pushContent_ne rest k c k₂ hne

theorem assocHas_eq_keys_contains :
    (m : List (String × α)) → (k : String) →
    assocHas m k = (m.map Prod.fst).contains k
  | [], _ => rfl
  | (k₀, v₀) :: rest, k => by
    rw [show assocHas ((k₀, v₀) :: rest) k = ((k₀ == k) || assocHas rest k) from rfl,
      List.map_cons,
      show ((k₀ :: rest.map Prod.fst).contains k)
        = ((k == k₀) || (rest.map Prod.fst).contains k) from rfl,
      assocHas_eq_keys_contains rest k]
    by_cases h : k₀ = k
    · subst h
      rfl
    · rw [beq_eq_false_iff_ne.mpr h, beq_eq_false_iff_ne.mpr (Ne.symm h)]

theorem keys_registerAndAppend (acc : List (String × MergedSection))
    (kv : String × SectionData) :
    (registerAndAppend acc kv).map Prod.fst =
      if assocHas acc kv.1 = true then acc.map Prod.fst
      else acc.map Prod.fst ++ [kv.1] := by
  unfold registerAndAppend
  simp only []
  by_cases h : assocHas acc kv.1 = true
  · rw [if_pos h, if_pos h]
    split
    · exact keys_pushContent acc kv.1 kv.2.content
    · rfl
  · rw [if_neg h, if_neg h]
    split
    · rw [keys_pushContent, List.map_append]
      rfl
    · rw [List.map_append]
      rfl

theorem contentsAt_registerAndAppend (acc : List (String × MergedSection))
    (kv : String × SectionData) (k : String) :
    contentsAt (registerAndAppend acc kv) k =
      if (kv.1 == k) = true then
        (if (kv.2.content != ""
              && !(contentsAt acc kv.1).contains kv.2.content) = true
          then contentsAt acc kv.1 ++ [kv.2.content] else contentsAt acc kv.1)
      else contentsAt acc k := by
  unfold registerAndAppend
  simp only []
  by_cases hh : assocHas acc kv.1 = true
  · rw [if_pos hh, contentsAt_def]
    obtain ⟨ms, hg⟩ := assocGet_some_of_has acc kv.1 hh
    split
    · next hcond =>
      by_cases hk : (kv.1 == k) = true
      · have hkeq : kv.1 = k := beq_iff_eq.mp hk
        subst hkeq
        rw [if_pos hk, contentsAt_eq, contentsAt_eq,
          assocGet_pushContent_self, hg]
        rfl
      · have hkne : k ≠ kv.1 := fun e => absurd (beq_iff_eq.mpr e.symm) hk
        rw [if_neg hk, contentsAt_eq, contentsAt_eq,
          assocGet_pushContent_ne acc kv.1 kv.2.content k hkne]
    · next hcond =>
      by_cases hk : (kv.1 == k) = true
      · have hkeq : kv.1 = k := beq_iff_eq.mp hk
        subst hkeq
        rw [if_pos hk]
      · rw [if_neg hk]
  · rw [if_neg hh, contentsAt_def]
    have hn : assocGet acc kv.1 = none :=
      assocGet_none_of_not_has acc kv.1 (by simpa using hh)
    have hE : contentsAt (acc ++ [(kv.1, ⟨kv.2.title, kv.2.level, []⟩)]) kv.1
        = [] := by
      rw [contentsAt_eq, assocGet_append_right _ _ _ hn, assocGet_cons,
        if_pos (by simp)]
      rfl
    have hA : contentsAt acc kv.1 = [] := by
      rw [contentsAt_eq, hn]
      rfl
    rw [hE, hA]
    split
    · next hcond =>
      by_cases hk : (kv.1 == k) = true
      · have hkeq : kv.1 = k := beq_iff_eq.mp hk
        subst hkeq
        rw [if_pos hk, contentsAt_eq, assocGet_pushContent_self,
          assocGet_append_right _ _ _ hn, assocGet_cons, if_pos (by simp)]
        rfl
      · have hkne : k ≠ kv.1 := fun e => absurd (beq_iff_eq.mpr e.symm) hk
        rw [if_neg hk, contentsAt_eq, contentsAt_eq,
          assocGet_pushContent_ne _ _ _ k hkne,
          assocGet_append_single_ne acc kv.1 _ k hkne]
    · next hcond =>
      by_cases hk : (kv.1 == k) = true
      · have hkeq : kv.1 = k := beq_iff_eq.mp hk
        subst hkeq
        rw [if_pos hk, hE]
      · have hkne : k ≠ kv.1 := fun e => absurd (beq_iff_eq.mpr e.symm) hk
        rw [if_neg hk, contentsAt_eq, contentsAt_eq,
          assocGet_append_single_ne acc kv.1 _ k hkne]

theorem dedupFirstAux_congr :
    (l : List String) → (s₁ s₂ : List String) → (∀ x, x ∈ s₁ ↔ x ∈ s₂) →
    dedupFirstAux s₁ l = dedupFirstAux s₂ l
  | [], _, _, _ => rfl
  | x :: xs, s₁, s₂, h => by
    have hc : s₁.contains x = s₂.contains x := by
      by_cases hx : x ∈ s₁
      · have h1 : s₁.contains x = true := List.elem_eq_true_of_mem hx
        have h2 : s₂.contains x = true := List.elem_eq_true_of_mem ((h x).mp hx)
        rw [h1, h2]
      · have h1 : s₁.contains x = false := by
          cases hcc : s₁.contains x
          · rfl
          · exact absurd (List.mem_of_elem_eq_true hcc) hx
        have h2 : s₂.contains x = false := by
          cases hcc : s₂.contains x
          · rfl
          · exact absurd ((h x).mpr (List.mem_of_elem_eq_true hcc)) hx
        rw [h1, h2]
    simp only [dedupFirstAux]
    rw [hc]
    by_cases hx2 : s₂.contains x = true
    · rw [if_pos hx2, if_pos hx2]
      exact dedupFirstAux_congr xs s₁ s₂ h
    · rw [if_neg hx2, if_neg hx2,
        dedupFirstAux_congr xs (x :: s₁) (x :: s₂) (fun y => by simp [h y])]

theorem keys_foldl_registerAndAppend :
    (entries : List (String × SectionData)) →
    (acc : List (String × MergedSection)) →
    (entries.foldl registerAndAppend acc).map Prod.fst =
      acc.map Prod.fst ++ dedupFirstAux (acc.map Prod.fst) (entries.map Prod.fst)
  | [], acc => by simp [dedupFirstAux]
  | kv :: rest, acc => by
    rw [List.foldl_cons, keys_foldl_registerAndAppend rest (registerAndAppend acc kv),
      keys_registerAndAppend, List.map_cons]
    simp only [dedupFirstAux]
    by_cases hh : assocHas acc kv.1 = true
    · have hc : (acc.map Prod.fst).contains kv.1 = true := by
        rw [← assocHas_eq_keys_contains]
        exact hh
      rw [if_pos hh, if_pos hc]
    · have hhf : assocHas acc kv.1 = false := by simpa using hh
      have hc : (acc.map Prod.fst).contains kv.1 = false := by
        rw [← assocHas_eq_keys_contains]
        exact hhf
      rw [if_neg hh, if_neg (by rw [hc]; intro e; cases e),
        dedupFirstAux_congr (rest.map Prod.fst) (acc.map Prod.fst ++ [kv.1])
          (kv.1 :: acc.map Prod.fst) (fun y => by
            constructor
            · intro hy
              rcases List.mem_append.mp hy with h1 | h1
              · exact List.mem_cons.mpr (Or.inr h1)
              · exact List.mem_cons.mpr (Or.inl (List.mem_singleton.mp h1))
            · intro hy
              rcases List.mem_cons.mp hy with h1 | h1
              · exact List.mem_append.mpr (Or.inr (List.mem_singleton.mpr h1))
              · exact List.mem_append.mpr (Or.inl h1)),
        List.append_assoc]
      rfl

theorem mem_append_singleton_iff {γ : Type} (a y : γ) (l : List γ) :
    y ∈ l ++ [a] ↔ y ∈ a :: l := by
  constructor
  · intro hy
    rcases List.mem_append.mp hy with h1 | h1
    · exact List.mem_cons.mpr (Or.inr h1)
    · exact List.mem_cons.mpr (Or.inl (List.mem_singleton.mp h1))
  · intro hy
    rcases List.mem_cons.mp hy with h1 | h1
    · exact List.mem_append.mpr (Or.inr (List.mem_singleton.mpr h1))
    · exact List.mem_append.mpr (Or.inl h1)

theorem contentsAt_foldl_registerAndAppend :
    (entries : List (String × SectionData)) →
    (acc : List (String × MergedSection)) → (k : String) →
    contentsAt (entries.foldl registerAndAppend acc) k =
      contentsAt acc k ++ dedupFirstAux (contentsAt acc k)
        (((entries.filter (fun e => e.1 == k)).map (fun e => e.2.content)).filter
          (fun c => c != ""))
  | [], acc, k => by simp [dedupFirstAux]
  | kv :: rest, acc, k => by
    rw [List.foldl_cons,
      contentsAt_foldl_registerAndAppend rest (registerAndAppend acc kv) k,
      contentsAt_registerAndAppend]
    by_cases hk : (kv.1 == k) = true
    · have hkeq : kv.1 = k := beq_iff_eq.mp hk
      subst hkeq
      rw [if_pos hk, List.filter_cons_of_pos (by exact hk), List.map_cons]
      by_cases hc : (kv.2.content != "") = true
      · rw [List.filter_cons_of_pos (by exact hc)]
        simp only [dedupFirstAux]
        by_cases hmem : (contentsAt acc kv.1).contains kv.2.content = true
        · rw [if_neg (by
              intro h
              rw [Bool.and_eq_true] at h
              have h2 := h.2
              rw [hmem] at h2
              cases h2), if_pos hmem]
        · have hmemf : (contentsAt acc kv.1).contains kv.2.content = false := by
            simpa using hmem
          rw [if_pos (by rw [hc, hmemf]; rfl), if_neg hmem,
            dedupFirstAux_congr
              (((rest.filter (fun e => e.1 == kv.1)).map
                (fun e => e.2.content)).filter (fun c => c != ""))
              (contentsAt acc kv.1 ++ [kv.2.content])
              (kv.2.content :: contentsAt acc kv.1)
              (fun y => mem_append_singleton_iff kv.2.content y _),
            List.append_assoc]
          rfl
      · have hcf : (kv.2.content != "") = false := by simpa using hc
        rw [List.filter_cons_of_neg (by simp [hcf]), if_neg (by simp [hcf])]
    · rw [if_neg hk, List.filter_cons_of_neg (by exact hk)]

theorem mergeAllSections_entries :
    (frs : List String) → (acc : List (String × MergedSection)) →
    frs.foldl (fun a f => if (f == "") = true then a
      else (parseAgentsContent f).foldl registerAndAppend a) acc =
    ((frs.filter (fun f => f != "")).flatMap parseAgentsContent).foldl
      registerAndAppend acc
  | [], _ => rfl
  | f :: fs, acc => by
    rw [List.foldl_cons]
    by_cases hf : (f == "") = true
    · have hfe : (f != "") = false := by simp [bne, hf]
      rw [if_pos hf, List.filter_cons_of_neg (by simp [hfe])]
      exact mergeAllSections_entries fs acc
    · have hff : (f == "") = false := by simpa using hf
      have hft : (f != "") = true := by simp [bne, hff]
      rw [if_neg hf, List.filter_cons_of_pos (by exact hft), List.flatMap_cons,
        List.foldl_append]
      exact mergeAllSections_entries fs ((parseAgentsContent f).foldl
        registerAndAppend acc)

/-- **C1.** Documentation merge over any ordered fragment sequence: the
merged section map lists keys in first-registration order (first-occurrence
deduplication of the parsed entries' keys, fragments in discovery order),
and at every key the body-variant list is exactly the first-occurrence
deduplication of the non-empty bodies contributed to that key in discovery
order — so byte-identical-after-trim duplicates appear once and distinct
bodies all appear, in order; the spec's two concrete merges confirm the
rendered output. -/
theorem c1_docs_merge :
    (∀ frs, (mergeAllSections frs).map Prod.fst =
      dedupFirst ((fragmentEntries frs).map Prod.fst)) ∧
    (∀ frs k, contentsAt (mergeAllSections frs) k =
      dedupFirst ((((fragmentEntries frs).filter (fun e => e.1 == k)).map
        (fun e => e.2.content)).filter (fun c => c != ""))) ∧
    mergeAgentsFiles ["## Tools\nX", "## Tools\nX"] = "## Tools\n\nX" ∧
    mergeAgentsFiles ["## Tools\nX", "## Tools\nY"] = "## Tools\n\nX\n\nY" := by
  refine ⟨?_, ?_, by decide, by decide⟩
  · intro frs
    have h1 : mergeAllSections frs =
        (fragmentEntries frs).foldl registerAndAppend [] :=
      mergeAllSections_entries frs []
    rw [h1, keys_foldl_registerAndAppend]
    rfl
  · intro frs k
    have h1 : mergeAllSections frs =
        (fragmentEntries frs).foldl registerAndAppend [] :=
      mergeAllSections_entries frs []
    rw [h1, contentsAt_foldl_registerAndAppend]
    rfl
